import Mathlib

/-!
Shallow embedding of the perftracker ingestion/search core (`src/main.rs`)
and verification of the frozen claims about it.

Modelling conventions, stated once here:
* Rust `String`/`&str` values are modelled as Lean `String` / `List Char`.
  Character classification (`char::is_alphanumeric`, `char::is_whitespace`,
  lowercasing) is modelled on the ASCII fragment via `Char.isAlphanum`,
  `Char.isWhitespace` and `Char.toLower`; every concrete input appearing in a
  counterexample or witness below is pure ASCII, so the restriction never
  affects an evaluated fact.
* `f64`/`f32` are modelled by `RustFloat`: a finite value is carried exactly
  as a rational, and `inf`, `-inf`, `NaN` are explicit tags.  Rounding of
  in-range finite values is not modelled (it is irrelevant to every claim);
  overflow of the `f32` range to infinity is modelled exactly, since Rust's
  `as f32` cast and `str::parse::<f32>` both produce infinities on overflow.
* Fallible operations return `Except`/`Option`.  The two loops in
  `clean_scheme_name` that strip non-alphanumeric edge characters use the
  *byte* length of the string to truncate a *char* iterator, so the source
  diverges on some non-ASCII inputs; the model makes this explicit by
  returning `none` exactly where the source would loop forever.
* The database and the HTTP shell are out of scope (spec §1); database
  effects are modelled as explicit state (a list of stored rows) plus an
  oracle for externally-caused statement failures.
-/

/-! ## Generic character/string helpers used by the embedded functions -/

/-- Boolean test that `p` is a prefix of `s` (used to model `str::starts_with`
style matching inside substring search). -/
def prefixOfB : List Char → List Char → Bool
  | [], _ => true
  | _ :: _, [] => false
  | p :: ps, c :: cs => p == c && prefixOfB ps cs

/-- Boolean substring containment on char lists, modelling Rust
`str::contains` (a byte-substring test, which on valid UTF-8 agrees with
char-substring containment). -/
def listContainsSub (hay pat : List Char) : Bool :=
  match hay with
  | [] => pat.isEmpty
  | _ :: t => prefixOfB pat hay || listContainsSub t pat

/-- Rust `str::contains` on strings. -/
def containsStr (hay pat : String) : Bool := listContainsSub hay.toList pat.toList

/-- Rust `str::to_lowercase` (ASCII model). -/
def lowerStr (s : String) : String := String.mk (s.toList.map Char.toLower)

/-- Accumulator-based worker for `split_whitespace`: `acc` holds the current
word reversed. -/
def splitWsAux (acc : List Char) : List Char → List (List Char)
  | [] =>
    match acc with
    | [] => []
    | _ :: _ => [acc.reverse]
  | c :: cs =>
    if c.isWhitespace then
      match acc with
      | [] => splitWsAux [] cs
      | _ :: _ => acc.reverse :: splitWsAux [] cs
    else
      splitWsAux (c :: acc) cs

/-- Rust `str::split_whitespace`: maximal runs of non-whitespace characters. -/
def splitWs (cs : List Char) : List (List Char) := splitWsAux [] cs

/-- Rust `Vec::<&str>::join(" ")`: interleave single spaces between words. -/
def joinSp : List (List Char) → List Char
  | [] => []
  | [w] => w
  | w :: ws => w ++ ' ' :: joinSp ws

/-- Rust `str::trim`: drop whitespace from both ends. -/
def rustTrim (cs : List Char) : List Char :=
  ((cs.dropWhile Char.isWhitespace).reverse.dropWhile Char.isWhitespace).reverse

/-- The `trim().split_whitespace().collect().join(" ")` idiom used by
`clean_scheme_name`. -/
def trimCollapse (cs : List Char) : List Char := joinSp (splitWs (rustTrim cs))

/-- UTF-8 byte length of a char list, modelling Rust `str::len`. -/
def utf8Len (cs : List Char) : Nat := cs.foldl (fun n c => n + c.utf8Size) 0

/-! ## Floating point model -/

/-- Model of an `f64`/`f32` value: finite values are carried exactly as
rationals, non-finite values as tags. -/
inductive RustFloat where
  | finite (q : ℚ)
  | inf
  | neginf
  | nan
deriving DecidableEq

/-- Rust `f64::is_finite`. -/
def RustFloat.is_finite : RustFloat → Bool
  | RustFloat.finite _ => true
  | _ => false

/-- Rust `f64::is_nan`. -/
def RustFloat.is_nan : RustFloat → Bool
  | RustFloat.nan => true
  | _ => false

/-- Numeric value of a digit string, most significant first. -/
def digitsVal (ds : List Char) : Nat := ds.foldl (fun n c => 10 * n + (c.toNat - 48)) 0

/-- Powers of two over the rationals (kept as a plain recursion so kernel
reduction can evaluate concrete parses). -/
def pow2 : Nat → ℚ
  | 0 => 1
  | n + 1 => 2 * pow2 n

/-- Powers of ten over the rationals. -/
def pow10 : Nat → ℚ
  | 0 => 1
  | n + 1 => 10 * pow10 n

/-- Smallest magnitude that rounds to infinity in `f32`
(the midpoint between the largest finite `f32` and `2^128`). -/
def f32OverflowBound : ℚ := (2 - 1 / pow2 24) * pow2 127

/-- Clamp an exact rational into the `f32` range, producing an infinity on
overflow exactly as Rust's float parsing and `as f32` casts do.  In-range
rounding is not modelled. -/
def clampToF32 (q : ℚ) : RustFloat :=
  if f32OverflowBound ≤ q then RustFloat.inf
  else if q ≤ -f32OverflowBound then RustFloat.neginf
  else RustFloat.finite q

/-- Rust `f64 as f32` narrowing cast on the model. -/
def asF32 : RustFloat → RustFloat
  | RustFloat.finite q => clampToF32 q
  | x => x

/-- Exponent part of a float literal: optional sign then at least one digit,
consuming the whole remainder. -/
def parseExpPart (cs : List Char) : Option Int :=
  let sgn : Bool × List Char :=
    match cs with
    | '-' :: t => (true, t)
    | '+' :: t => (false, t)
    | _ => (false, cs)
  let ds := sgn.2.takeWhile Char.isDigit
  let rest := sgn.2.dropWhile Char.isDigit
  if ds.isEmpty || !rest.isEmpty then none
  else some (if sgn.1 then -(digitsVal ds : Int) else (digitsVal ds : Int))

/-- Assemble the parsed pieces of a decimal float literal into a value. -/
def buildF32 (neg : Bool) (intDs fracDs : List Char) (e : Int) : RustFloat :=
  let mant : ℚ := (digitsVal (intDs ++ fracDs) : ℚ)
  let scale : Int := e - (fracDs.length : Int)
  let q : ℚ := if 0 ≤ scale then mant * pow10 scale.toNat else mant / pow10 (-scale).toNat
  clampToF32 (if neg then -q else q)

/-- Rust `str::parse::<f32>`: optional sign; then `inf`/`infinity`/`nan`
(ASCII case-insensitive) or a decimal mantissa with optional fraction and
optional exponent; the whole string must be consumed. -/
def parseF32Chars (cs : List Char) : Option RustFloat :=
  let sgn : Bool × List Char :=
    match cs with
    | '-' :: t => (true, t)
    | '+' :: t => (false, t)
    | _ => (false, cs)
  let low := sgn.2.map Char.toLower
  if low = "inf".toList || low = "infinity".toList then
    some (if sgn.1 then RustFloat.neginf else RustFloat.inf)
  else if low = "nan".toList then some RustFloat.nan
  else
    let intDs := sgn.2.takeWhile Char.isDigit
    let r1 := sgn.2.dropWhile Char.isDigit
    let fracPart : Option (List Char × List Char) :=
      match r1 with
      | '.' :: t => some (t.takeWhile Char.isDigit, t.dropWhile Char.isDigit)
      | _ => none
    let fracDs := match fracPart with | some p => p.1 | none => []
    let r2 := match fracPart with | some p => p.2 | none => r1
    if intDs.isEmpty && fracDs.isEmpty then none
    else
      match r2 with
      | [] => some (buildF32 sgn.1 intDs fracDs 0)
      | c :: t =>
        if c == 'e' || c == 'E' then
          match parseExpPart t with
          | some e => some (buildF32 sgn.1 intDs fracDs e)
          | none => none
        else none

/-! ## The cell model (calamine `Data`) -/

/-- calamine `CellErrorType`. -/
inductive CellErrorType where
  | div0 | na | name | null | num | ref | value | gettingData
deriving DecidableEq

/-- Display string of a cell error, as calamine renders it. -/
def cellErrorToString : CellErrorType → String
  | CellErrorType.div0 => "#DIV/0!"
  | CellErrorType.na => "#N/A"
  | CellErrorType.name => "#NAME?"
  | CellErrorType.null => "#NULL!"
  | CellErrorType.num => "#NUM!"
  | CellErrorType.ref => "#REF!"
  | CellErrorType.value => "#VALUE!"
  | CellErrorType.gettingData => "#GETTING_DATA"

/-- calamine `Data`: the closed set of cell kinds this program consumes
(spec §6 names exactly numeric / text / boolean / error / empty). -/
inductive Data where
  | Float (f : RustFloat)
  | Int (i : Int)
  | Str (s : String)
  | Boolean (b : Bool)
  | Error (e : CellErrorType)
  | Empty
deriving DecidableEq

/-- Display of an `f64` cell (Rust `{}` formatting).  Integral values are
rendered exactly; non-integral and non-finite renderings are only
approximated, and no claim below ever evaluates `dataToString` on a
`Float` cell. -/
def floatRepr : RustFloat → String
  | RustFloat.inf => "inf"
  | RustFloat.neginf => "-inf"
  | RustFloat.nan => "NaN"
  | RustFloat.finite q =>
    if q.den == 1 then toString q.num else toString q.num ++ "." ++ toString q.den

/-- calamine's `Display` for `Data` (`cell.to_string()` in the source). -/
def dataToString : Data → String
  | Data.Float f => floatRepr f
  | Data.Int i => toString i
  | Data.Str s => s
  | Data.Boolean b => if b then "true" else "false"
  | Data.Error e => cellErrorToString e
  | Data.Empty => ""

/-! ## `normalize_scheme_name` (src/main.rs:565) -/

/-- src/main.rs:565 `normalize_scheme_name`: lowercase, keep only
alphanumeric/whitespace characters, collapse whitespace runs to single
spaces, trim. -/
def normalize_scheme_name (s : String) : String :=
  String.mk (rustTrim (joinSp (splitWs
    ((s.toList.map Char.toLower).filter (fun c => c.isAlphanum || c.isWhitespace)))))

/-! ## `clean_scheme_name` (src/main.rs:762) -/

/-- The `while let` loop removing leading non-alphanumeric characters
(`name.chars().skip(1).collect()`). -/
def stripLeadingNonAlnum : List Char → List Char
  | [] => []
  | c :: rest => if c.isAlphanum then c :: rest else stripLeadingNonAlnum rest

/-- The `while let` loop removing trailing non-alphanumeric characters.  The
source truncates the *char* iterator to `name.len() - 1` where `len` is the
*byte* length (`name.chars().take(name.len() - 1).collect()`), so when the
string holds a multi-byte char and ends in a non-alphanumeric char the loop
makes no progress and the source diverges; the model returns `none` exactly
there.  The fuel `cs.length + 1` is enough for every terminating run because
each step strictly shortens the list. -/
def stripTrailingFuel : Nat → List Char → Option (List Char)
  | 0, _ => none
  | fuel + 1, cs =>
    match cs.getLast? with
    | none => some cs
    | some c =>
      if c.isAlphanum then some cs
      else
        let next := cs.take (utf8Len cs - 1)
        if next.length < cs.length then stripTrailingFuel fuel next else none

/-- Trailing-edge strip of `clean_scheme_name`; `none` models divergence. -/
def stripTrailingNonAlnum (cs : List Char) : Option (List Char) :=
  stripTrailingFuel (cs.length + 1) cs

/-- Rust `str::replace(pattern, "")`: delete all non-overlapping
left-to-right occurrences.  `skip > 0` means we are inside an already
matched occurrence. -/
def replaceDelGo (pat : List Char) (skip : Nat) : List Char → List Char
  | [] => []
  | c :: rest =>
    match skip with
    | k + 1 => replaceDelGo pat k rest
    | 0 =>
      if prefixOfB pat (c :: rest) then replaceDelGo pat (pat.length - 1) rest
      else c :: replaceDelGo pat 0 rest

/-- Rust `String::replace(pat, "")` (all the patterns used are non-empty). -/
def replaceAll (pat : List Char) (s : List Char) : List Char :=
  if pat.isEmpty then s else replaceDelGo pat 0 s

/-- Rust `strip_suffix(suffix).unwrap_or(&name)`: remove one trailing
occurrence if present. -/
def stripSuffixOnce (suf s : List Char) : List Char :=
  if prefixOfB suf.reverse s.reverse then s.take (s.length - suf.length) else s

/-- The `global_remove` pattern list (src/main.rs:785), in source order. -/
def globalRemovePatterns : List String :=
  ["- Reg - Growth", " - Reg - Growth", "- Reg - Gth", " - Reg - Gth",
   " - Reg - G P", "- Reg - G P", " - Reg ", "- Reg ", "-Reg-Growth"]

/-- The `suffixes` list (src/main.rs:803), in source order. -/
def suffixPatterns : List String :=
  ["- Reg - Growth", "- Reg - Gth", "- Growth", "-Reg", "-Reg ", "-Growth",
   "Growth", "- Reg", "Regular", " Regular", "- Reg - G P", " - Reg",
   " - Reg - G P", " - Reg - Growth (Re-launched", " - Regular", " -Reg",
   " - Reg ", "- Regular", "- Regular ", " - Regular ", " -Reg ", "-Reg-Growth"]

/-- Step 2 of `clean_scheme_name`: fold of global replacements. -/
def globalStage (cs : List Char) : List Char :=
  globalRemovePatterns.foldl (fun n p => replaceAll p.toList n) cs

/-- Step 3 of `clean_scheme_name`: fold of single suffix strips. -/
def suffixStage (cs : List Char) : List Char :=
  suffixPatterns.foldl (fun n p => stripSuffixOnce p.toList n) cs

/-- src/main.rs:762 `clean_scheme_name`: edge-trim, whitespace collapse,
global pattern removal, one sequential suffix-strip pass, edge-trim and
collapse again.  `none` models the source's divergence on certain
non-ASCII inputs (see `stripTrailingFuel`). -/
def clean_scheme_name (s : String) : Option String :=
  match stripTrailingNonAlnum (stripLeadingNonAlnum s.toList) with
  | none => none
  | some b =>
    match stripTrailingNonAlnum (stripLeadingNonAlnum (suffixStage (globalStage (trimCollapse b)))) with
    | none => none
    | some g => some (String.mk (trimCollapse g))

/-! ## `parse_float_option` (src/main.rs:646) -/

/-- src/main.rs:646 `parse_float_option`: native floats pass through a
finiteness guard, integers widen, every other cell kind is stringified,
trimmed, special-cased for `""`/`"N/A"`/`"-"`, and otherwise parsed. -/
def parse_float_option (cell : Option Data) : Option RustFloat :=
  match cell with
  | some (Data.Float f) =>
    if f.is_finite && !f.is_nan then some (asF32 f) else none
  | some (Data.Int i) => some (RustFloat.finite (i : ℚ))
  | some val =>
    let s := rustTrim (dataToString val).toList
    if s = "".toList ∨ s = "N/A".toList ∨ s = "-".toList then none
    else parseF32Chars s
  | none => none

/-! ## Workbook model and the per-sheet pipeline (src/main.rs:535-643) -/

/-- A sheet's cell grid: rows of optional cells.  `cellGet` models
calamine `Range::get`, which yields `None` outside the stored range. -/
def Grid : Type := List (List (Option Data))

/-- calamine `range.get((r, c))`. -/
def cellGet (grid : Grid) (r c : Nat) : Option Data :=
  match List.get? grid r with
  | none => none
  | some row =>
    match List.get? row c with
    | none => none
    | some cell => cell

/-- Height of a grid (calamine `Range::height`). -/
def gridHeight (grid : Grid) : Nat := List.length grid

/-- One record as extracted from a sheet row (struct `FundData`,
src/main.rs:112). -/
structure FundData where
  category : String
  scheme_name : String
  launch_date : String
  fund_size_apr25 : Option RustFloat
  fund_size_may25 : Option RustFloat
  latest_nav : Option RustFloat
  month_1 : Option RustFloat
  months_3 : Option RustFloat
  months_6 : Option RustFloat
  ytd : Option RustFloat
  year_1 : Option RustFloat
  years_2 : Option RustFloat
  years_3 : Option RustFloat
  years_5 : Option RustFloat
deriving DecidableEq

/-- Worker for `find_header_row`, scanning the candidate row indices in
order. -/
def findHeaderAux (grid : Grid) : List Nat → Except String Nat
  | [] => Except.error "Header row not found"
  | r :: rest =>
    match cellGet grid r 0 with
    | some cell =>
      if containsStr (lowerStr (dataToString cell)) "scheme name" then Except.ok r
      else findHeaderAux grid rest
    | none => findHeaderAux grid rest

/-- src/main.rs:594 `find_header_row`: scan column 0 of the first
`min 15 height` rows for a cell whose lowercased text contains
"scheme name". -/
def find_header_row (grid : Grid) : Except String Nat :=
  findHeaderAux grid (List.range (min 15 (gridHeight grid)))

/-- src/main.rs:605 `parse_fund_row`: read scheme name (col 0) and launch
date (col 1), reject the row when either is empty, coerce the numeric
columns (note col 12 is skipped and `years_5` reads col 13, as in the
source). -/
def parse_fund_row (category : String) (grid : Grid) (row_idx : Nat) : Option FundData :=
  match cellGet grid row_idx 0 with
  | none => none
  | some c0 =>
    let scheme_name := dataToString c0
    let launch_date :=
      match cellGet grid row_idx 1 with
      | some c1 => dataToString c1
      | none => ""
    if scheme_name == "" || launch_date == "" then none
    else some
      { category := category
        scheme_name := scheme_name
        launch_date := launch_date
        fund_size_apr25 := parse_float_option (cellGet grid row_idx 2)
        fund_size_may25 := parse_float_option (cellGet grid row_idx 3)
        latest_nav := parse_float_option (cellGet grid row_idx 4)
        month_1 := parse_float_option (cellGet grid row_idx 5)
        months_3 := parse_float_option (cellGet grid row_idx 6)
        months_6 := parse_float_option (cellGet grid row_idx 7)
        ytd := parse_float_option (cellGet grid row_idx 8)
        year_1 := parse_float_option (cellGet grid row_idx 9)
        years_2 := parse_float_option (cellGet grid row_idx 10)
        years_3 := parse_float_option (cellGet grid row_idx 11)
        years_5 := parse_float_option (cellGet grid row_idx 13) }

/-- src/main.rs:578 `extract_fund_data`: find the header row (propagating
its failure with `?`), then collect the parsed rows below it. -/
def extract_fund_data (category : String) (grid : Grid) : Except String (List FundData) :=
  match find_header_row grid with
  | Except.error e => Except.error e
  | Except.ok h =>
    Except.ok ((List.range' (h + 1) (gridHeight grid - (h + 1))).filterMap
      (parse_fund_row category grid))

/-- One sheet of an opened workbook.  `range = none` models
`workbook.worksheet_range` returning `Err`, which the source silently
skips (`if let Ok(range) = ...`). -/
structure SheetE where
  name : String
  range : Option Grid

/-- The hard-coded skip list (src/main.rs:539). -/
def skip_sheets : List String := ["Main Page", "Summary", "Glossary", "Load", "Disclaimer"]

/-- The sheet loop of src/main.rs:543 `process_excel_file`: skip listed
sheets, skip unreadable ranges, and propagate (`?`) any error from
`extract_fund_data`, pooling the records of the processed sheets in
order. -/
def process_excel_sheets : List SheetE → Except String (List FundData)
  | [] => Except.ok []
  | s :: rest =>
    if skip_sheets.contains s.name then process_excel_sheets rest
    else
      match s.range with
      | none => process_excel_sheets rest
      | some g =>
        match extract_fund_data s.name g with
        | Except.error e => Except.error e
        | Except.ok recs =>
          match process_excel_sheets rest with
          | Except.error e => Except.error e
          | Except.ok more => Except.ok (recs ++ more)

/-- Worker for `remove_all_duplicates`; `seen` models the `HashSet` of
already-seen normalized names (`insert` returns false on a repeat). -/
def removeDupsAux (seen : List String) : List FundData → List FundData
  | [] => []
  | f :: rest =>
    if seen.contains (normalize_scheme_name f.scheme_name) then removeDupsAux seen rest
    else f :: removeDupsAux (normalize_scheme_name f.scheme_name :: seen) rest

/-- src/main.rs:631 `remove_all_duplicates`: keep the first record seen for
each normalized scheme name, drop later ones. -/
def remove_all_duplicates (all_funds : List FundData) : List FundData :=
  removeDupsAux [] all_funds

/-- The pure part of src/main.rs:535 `process_excel_file`: pooled records of
all processed sheets, deduplicated.  (Opening the workbook, the database
connection and `insert_fund_data` are modelled separately.) -/
def process_excel_file_pure (sheets : List SheetE) : Except String (List FundData) :=
  match process_excel_sheets sheets with
  | Except.error e => Except.error e
  | Except.ok all_funds => Except.ok (remove_all_duplicates all_funds)

/-! ## Persistence reconciler (src/main.rs:675 `insert_fund_data`)

The `funds` table is modelled as a list of rows; the SERIAL id and
timestamp columns are omitted (no claim concerns them).  Externally caused
insert failures (the race the source recovers from with `warn!` + skip)
are driven by an oracle `failOn : Nat → Bool` indexed by record position;
the unique constraint on `scheme_name` is modelled directly. -/

/-- A stored row of the `funds` table. -/
structure StoredRow where
  category : String
  scheme_name : String
  launch_date : String
  fund_size_apr25 : Option RustFloat
  fund_size_may25 : Option RustFloat
  latest_nav : Option RustFloat
  month_1 : Option RustFloat
  months_3 : Option RustFloat
  months_6 : Option RustFloat
  ytd : Option RustFloat
  year_1 : Option RustFloat
  years_2 : Option RustFloat
  years_3 : Option RustFloat
  years_5 : Option RustFloat
deriving DecidableEq

/-- The row contents written for `fund` under the (cleaned) key `key` —
the column list shared by the UPDATE and the INSERT statements. -/
def applyFund (fund : FundData) (key : String) : StoredRow :=
  { category := fund.category
    scheme_name := key
    launch_date := fund.launch_date
    fund_size_apr25 := fund.fund_size_apr25
    fund_size_may25 := fund.fund_size_may25
    latest_nav := fund.latest_nav
    month_1 := fund.month_1
    months_3 := fund.months_3
    months_6 := fund.months_6
    ytd := fund.ytd
    year_1 := fund.year_1
    years_2 := fund.years_2
    years_3 := fund.years_3
    years_5 := fund.years_5 }

/-- The UPDATE statement: set every non-key column of each row whose
`scheme_name` equals `key`; the returned number is the affected-row
count. -/
def updateExec (store : List StoredRow) (key : String) (fund : FundData) :
    List StoredRow × Nat :=
  (store.map (fun r => if r.scheme_name == key then applyFund fund key else r),
   store.countP (fun r => r.scheme_name == key))

/-- The INSERT statement: fails on an externally injected error or on the
`UNIQUE (scheme_name)` constraint, otherwise appends the row and reports
one affected row. -/
def insertExec (store : List StoredRow) (key : String) (fund : FundData)
    (externalFailure : Bool) : Except String (List StoredRow × Nat) :=
  if externalFailure then Except.error "insert failed"
  else if store.any (fun r => r.scheme_name == key) then
    Except.error "duplicate key value violates unique constraint"
  else Except.ok (store ++ [applyFund fund key], 1)

/-- The per-record loop of `insert_fund_data`, carrying the evolving store
and the `inserted` counter.  A record whose name the source's
`clean_scheme_name` diverges on makes the whole call diverge (`none`). -/
def insertFundsLoop (failOn : Nat → Bool) (store : List StoredRow) (inserted : Nat) :
    List FundData → Option (List StoredRow × Nat)
  | [] => some (store, inserted)
  | fund :: rest =>
    match clean_scheme_name fund.scheme_name with
    | none => none
    | some key =>
      let upd := updateExec store key fund
      if upd.2 == 0 then
        match insertExec upd.1 key fund (failOn 0) with
        | Except.ok res =>
          insertFundsLoop (fun n => failOn (n + 1)) res.1
            (if res.2 > 0 then inserted + 1 else inserted) rest
        | Except.error _ =>
          insertFundsLoop (fun n => failOn (n + 1)) upd.1 inserted rest
      else insertFundsLoop (fun n => failOn (n + 1)) upd.1 (inserted + 1) rest

/-- src/main.rs:675 `insert_fund_data`: clean each name, UPDATE first,
INSERT only when zero rows were updated, recover locally from insert
failures, and return the store together with the single processed
count. -/
def insert_fund_data (failOn : Nat → Bool) (store : List StoredRow)
    (funds : List FundData) : Option (List StoredRow × Nat) :=
  insertFundsLoop failOn store 0 funds

/-! ## Virtual search table (src/main.rs:17-108, 225-317) -/

/-- chrono `NaiveDate`, carried opaquely. -/
structure NaiveDate where
  year : Int
  month : Nat
  day : Nat
deriving DecidableEq

/-- struct `CombinedSchemeData` (src/main.rs:18). -/
structure CombinedSchemeData where
  fund_id : Option Int
  fund_category : Option String
  launch_date : Option String
  fund_size_apr25 : Option RustFloat
  fund_size_may25 : Option RustFloat
  latest_nav : Option RustFloat
  month_1 : Option RustFloat
  months_3 : Option RustFloat
  months_6 : Option RustFloat
  ytd : Option RustFloat
  year_1 : Option RustFloat
  years_2 : Option RustFloat
  years_3 : Option RustFloat
  years_5 : Option RustFloat
  rate_id : Option Int
  arn : Option String
  company : Option String
  scheme_category : Option String
  brokerage_type : Option String
  start_date : Option NaiveDate
  end_date : Option NaiveDate
  base_year_1 : Option RustFloat
  base_year_2 : Option RustFloat
  base_year_3 : Option RustFloat
  scheme_name : String
  normalized_name : String
deriving DecidableEq

/-- The all-`none` record, used only as the out-of-bounds default of
`dataGet` (Rust indexing would panic there; the C10 invariant shows the
default is never reached from reachable tables). -/
def dfltCombined : CombinedSchemeData :=
  { fund_id := none, fund_category := none, launch_date := none,
    fund_size_apr25 := none, fund_size_may25 := none, latest_nav := none,
    month_1 := none, months_3 := none, months_6 := none, ytd := none,
    year_1 := none, years_2 := none, years_3 := none, years_5 := none,
    rate_id := none, arn := none, company := none, scheme_category := none,
    brokerage_type := none, start_date := none, end_date := none,
    base_year_1 := none, base_year_2 := none, base_year_3 := none,
    scheme_name := "", normalized_name := "" }

/-- struct `VirtualTable` (src/main.rs:54).  The `HashMap` is modelled as an
association list with pairwise-distinct keys; its iteration order — which
the source treats as arbitrary — is the list order. -/
structure VirtualTable where
  data : List CombinedSchemeData
  name_index : List (String × List Nat)

/-- `HashMap::get`. -/
def lookupIdx (m : List (String × List Nat)) (k : String) : Option (List Nat) :=
  match m with
  | [] => none
  | (k', v) :: rest => if k' == k then some v else lookupIdx rest k

/-- `HashMap::entry(k).or_insert_with(Vec::new).push(i)`. -/
def indexInsert (m : List (String × List Nat)) (k : String) (i : Nat) :
    List (String × List Nat) :=
  match m with
  | [] => [(k, [i])]
  | (k', v) :: rest =>
    if k' == k then (k', v ++ [i]) :: rest else (k', v) :: indexInsert rest k i

/-- `VirtualTable::new` (src/main.rs:60). -/
def VirtualTable.new : VirtualTable := { data := [], name_index := [] }

/-- `VirtualTable::add_record` (src/main.rs:67): index the record's
normalized name at the next data position, then push the record. -/
def VirtualTable.add_record (vt : VirtualTable) (record : CombinedSchemeData) :
    VirtualTable :=
  let index := vt.data.length
  let normalized := normalize_scheme_name record.scheme_name
  { data := vt.data ++ [record], name_index := indexInsert vt.name_index normalized index }

/-- `self.data[idx].clone()`, total via a default (see `dfltCombined`). -/
def dataGet (vt : VirtualTable) (i : Nat) : CombinedSchemeData :=
  match List.get? vt.data i with
  | some r => r
  | none => dfltCombined

/-- The exact-match loop of `search`: push indexed records until `limit`. -/
def pushLimited (vt : VirtualTable) (limit : Nat)
    (acc : List CombinedSchemeData) : List Nat → List CombinedSchemeData
  | [] => acc
  | i :: rest =>
    if limit ≤ acc.length then acc
    else pushLimited vt limit (acc ++ [dataGet vt i]) rest

/-- The exact-match phase of `search` (src/main.rs:84). -/
def exactPass (vt : VirtualTable) (key : String) (limit : Nat) :
    List CombinedSchemeData :=
  match lookupIdx vt.name_index key with
  | some idxs => pushLimited vt limit [] idxs
  | none => []

/-- The inner loop of the partial-match phase: respect `limit`, skip
records whose normalized name is already present, append the rest. -/
def partialInner (vt : VirtualTable) (limit : Nat)
    (acc : List CombinedSchemeData) : List Nat → List CombinedSchemeData
  | [] => acc
  | i :: rest =>
    if limit ≤ acc.length then acc
    else if acc.any (fun r => r.normalized_name == (dataGet vt i).normalized_name) then
      partialInner vt limit acc rest
    else partialInner vt limit (acc ++ [dataGet vt i]) rest

/-- The outer loop of the partial-match phase (src/main.rs:93): visit index
entries in scan order, entering only keys that strictly contain the query
key, and break once `limit` is reached. -/
def partialOuter (vt : VirtualTable) (key : String) (limit : Nat)
    (acc : List CombinedSchemeData) :
    List (String × List Nat) → List CombinedSchemeData
  | [] => acc
  | (name, idxs) :: rest =>
    let acc1 :=
      if containsStr name key && name != key then partialInner vt limit acc idxs
      else acc
    if limit ≤ acc1.length then acc1 else partialOuter vt key limit acc1 rest

/-- `VirtualTable::search` (src/main.rs:79). -/
def VirtualTable.search (vt : VirtualTable) (query : String) (limit : Nat) :
    List CombinedSchemeData :=
  let normalized_query := normalize_scheme_name query
  let results := exactPass vt normalized_query limit
  if results.length < limit then partialOuter vt normalized_query limit results vt.name_index
  else results

/-- The row loop of src/main.rs:225 `build_virtual_table`: the SQL join
result is taken as given (one `CombinedSchemeData` per returned row, its
`normalized_name` recomputed from `scheme_name` as in the source). -/
def buildFromRows (rows : List CombinedSchemeData) : VirtualTable :=
  rows.foldl
    (fun vt r =>
      vt.add_record { r with normalized_name := normalize_scheme_name r.scheme_name })
    VirtualTable.new

/-- src/main.rs:225 `build_virtual_table`, with the database query's outcome
as input: a failed query fails the build, a successful one yields a fresh
table. -/
def build_virtual_table (queryResult : Except String (List CombinedSchemeData)) :
    Except String VirtualTable :=
  match queryResult with
  | Except.error e => Except.error e
  | Except.ok rows => Except.ok (buildFromRows rows)

/-- src/main.rs:308 `refresh_virtual_table`: connect (`?`), build (`?`),
and only then overwrite the served table.  The connection and query are
abstract inputs; the returned pair is (table now served, call result). -/
def refresh_virtual_table {Conn : Type} (current : VirtualTable)
    (connect : Except String Conn)
    (query : Conn → Except String (List CombinedSchemeData)) :
    VirtualTable × Except String Unit :=
  match connect with
  | Except.error e => (current, Except.error e)
  | Except.ok c =>
    match build_virtual_table (query c) with
    | Except.error e => (current, Except.error e)
    | Except.ok t => (t, Except.ok ())

/-! ## Lemma kit: characters -/

/-- `Char.ofNat` on a valid codepoint round-trips through `toNat`. -/
theorem char_toNat_ofNat (n : Nat) (h : n.isValidChar) : (Char.ofNat n).toNat = n := by
  unfold Char.ofNat
  rw [dif_pos h]
  rfl

/-- ASCII lowercasing is idempotent. -/
theorem toLower_idem (c : Char) : Char.toLower (Char.toLower c) = Char.toLower c := by
  simp only [Char.toLower]
  by_cases h : c.toNat ≥ 65 ∧ c.toNat ≤ 90
  · rw [if_pos h]
    have hv : Nat.isValidChar (c.toNat + 32) := Or.inl (by omega)
    have ht : (Char.ofNat (c.toNat + 32)).toNat = c.toNat + 32 := char_toNat_ofNat _ hv
    rw [if_neg]
    intro hcon
    rw [ht] at hcon
    omega
  · rw [if_neg h, if_neg h]

/-- A whitespace character is not alphanumeric. -/
theorem ws_not_alnum {c : Char} (h : c.isWhitespace = true) : c.isAlphanum = false := by
  simp only [Char.isWhitespace, Bool.or_eq_true, decide_eq_true_eq] at h
  rcases h with ((h | h) | h) | h <;> subst h <;> decide

/-- An alphanumeric character is not whitespace. -/
theorem alnum_not_ws {c : Char} (h : c.isAlphanum = true) : c.isWhitespace = false := by
  cases hw : c.isWhitespace
  · rfl
  · rw [ws_not_alnum hw] at h
    cases h

/-! ## Lemma kit: lists and `splitWs`/`joinSp` -/

/-- `dropWhile` keeps the last element when that element fails the predicate. -/
theorem dropWhile_getLast? {α : Type} (p : α → Bool) :
    ∀ (l : List α) (c : α), l.getLast? = some c → p c = false →
      (l.dropWhile p).getLast? = some c := by
  intro l
  induction l with
  | nil => intro c h _; cases h
  | cons a t ih =>
    intro c h hp
    cases t with
    | nil =>
      have ha : a = c := by simpa using h
      subst ha
      rw [List.dropWhile_cons_of_neg (by simp [hp])]
      rfl
    | cons b t2 =>
      have h2 : (b :: t2).getLast? = some c := by simpa using h
      by_cases hpa : p a
      · rw [List.dropWhile_cons_of_pos hpa]
        exact ih c h2 hp
      · rw [List.dropWhile_cons_of_neg hpa]
        exact h

/-- Mapping a function that fixes every element is the identity. -/
theorem map_eq_self_of {α : Type} (f : α → α) :
    ∀ (l : List α), (∀ a ∈ l, f a = a) → l.map f = l := by
  intro l
  induction l with
  | nil => intro _; rfl
  | cons a t ih =>
    intro h
    simp only [List.map_cons]
    rw [h a (List.mem_cons_self a t), ih (fun x hx => h x (List.mem_cons_of_mem a hx))]

/-- Every word produced by `splitWsAux` from a whitespace-free accumulator is
nonempty and whitespace-free. -/
theorem splitWsAux_good : ∀ (cs acc : List Char),
    (∀ c ∈ acc, c.isWhitespace = false) →
    ∀ w ∈ splitWsAux acc cs, w ≠ [] ∧ ∀ c ∈ w, c.isWhitespace = false := by
  intro cs
  induction cs with
  | nil =>
    intro acc hacc w hw
    cases acc with
    | nil => simp [splitWsAux] at hw
    | cons x y =>
      simp only [splitWsAux, List.mem_singleton] at hw
      subst hw
      refine ⟨by simp, ?_⟩
      intro c hc
      exact hacc c (List.mem_reverse.mp hc)
  | cons a t ih =>
    intro acc hacc w hw
    by_cases hws : a.isWhitespace
    · cases acc with
      | nil =>
        simp only [splitWsAux, hws, if_pos] at hw
        exact ih [] (by intro x hx; cases hx) w hw
      | cons x y =>
        simp only [splitWsAux, hws, if_pos] at hw
        rcases List.mem_cons.mp hw with hw | hw
        · subst hw
          refine ⟨by simp, ?_⟩
          intro c hc
          exact hacc c (List.mem_reverse.mp hc)
        · exact ih [] (by intro x hx; cases hx) w hw
    · simp only [splitWsAux, hws, if_neg, Bool.false_eq_true, not_false_iff] at hw
      refine ih (a :: acc) ?_ w hw
      intro x hx
      rcases List.mem_cons.mp hx with hx | hx
      · subst hx
        exact Bool.eq_false_iff.mpr hws
      · exact hacc x hx

/-- Consuming a whitespace-free chunk shifts it into the accumulator. -/
theorem splitWsAux_chunk : ∀ (w acc cs : List Char),
    (∀ c ∈ w, c.isWhitespace = false) →
    splitWsAux acc (w ++ cs) = splitWsAux (w.reverse ++ acc) cs := by
  intro w
  induction w with
  | nil => intro acc cs _; simp
  | cons a w ih =>
    intro acc cs hw
    have ha : a.isWhitespace = false := hw a (List.mem_cons_self a w)
    simp only [List.cons_append, splitWsAux, ha, Bool.false_eq_true, if_false, List.append_eq]
    rw [ih (a :: acc) cs (fun c hc => hw c (List.mem_cons_of_mem a hc))]
    congr 1
    simp [List.append_assoc]

/-- Splitting the space-joined form of nonempty whitespace-free words
recovers exactly those words. -/
theorem splitWs_joinSp : ∀ (ws : List (List Char)),
    (∀ w ∈ ws, w ≠ [] ∧ ∀ c ∈ w, c.isWhitespace = false) →
    splitWs (joinSp ws) = ws := by
  intro ws
  induction ws with
  | nil => intro _; rfl
  | cons w rest ih =>
    intro h
    have hw := h w (List.mem_cons_self w rest)
    cases rest with
    | nil =>
      show splitWs (joinSp [w]) = [w]
      have hjw : joinSp [w] = w := rfl
      rw [hjw]
      unfold splitWs
      have hchunk := splitWsAux_chunk w [] [] hw.2
      rw [List.append_nil] at hchunk
      rw [hchunk]
      rw [List.append_nil]
      cases hrev : w.reverse with
      | nil =>
        exact absurd (by simpa using hrev) hw.1
      | cons x y =>
        have hrr : (x :: y).reverse = w := by rw [← hrev, List.reverse_reverse]
        show [(x :: y).reverse] = [w]
        rw [hrr]
    | cons r rs =>
      have hj : joinSp (w :: r :: rs) = w ++ ' ' :: joinSp (r :: rs) := rfl
      rw [hj]
      unfold splitWs
      rw [splitWsAux_chunk w [] (' ' :: joinSp (r :: rs)) hw.2, List.append_nil]
      cases hrev : w.reverse with
      | nil => exact absurd (by simpa using hrev) hw.1
      | cons x y =>
        have hrr : (x :: y).reverse = w := by rw [← hrev, List.reverse_reverse]
        have hstep : splitWsAux (x :: y) (' ' :: joinSp (r :: rs))
            = (x :: y).reverse :: splitWsAux [] (joinSp (r :: rs)) := by
          simp [splitWsAux]
        rw [hstep, hrr]
        have hih := ih (fun u hu => h u (List.mem_cons_of_mem w hu))
        unfold splitWs at hih
        rw [hih]

/-- The joined form of a block starting with a nonempty word starts with
that word's head. -/
theorem joinSp_head?_cons (a : Char) (t : List Char) (rest : List (List Char)) :
    (joinSp ((a :: t) :: rest)).head? = some a := by
  cases rest <;> rfl

/-- The joined form of a block starting with a nonempty word is nonempty. -/
theorem joinSp_ne_nil (w : List Char) (rest : List (List Char)) (hw : w ≠ []) :
    joinSp (w :: rest) ≠ [] := by
  cases rest with
  | nil => exact hw
  | cons r rs =>
    show w ++ ' ' :: joinSp (r :: rs) ≠ []
    simp

/-- The last element of a space-join is the last element of its last word. -/
theorem joinSp_getLast?_concat : ∀ (front : List (List Char)) (w : List Char),
    (∀ u ∈ front, u ≠ []) → w ≠ [] →
    (joinSp (front ++ [w])).getLast? = w.getLast? := by
  intro front
  induction front with
  | nil => intro w _ _; rfl
  | cons u front ih =>
    intro w hfront hw
    have hju : joinSp ((u :: front) ++ [w]) = u ++ ' ' :: joinSp (front ++ [w]) := by
      cases front <;> rfl
    rw [hju]
    have hne : joinSp (front ++ [w]) ≠ [] := by
      cases front with
      | nil => exact hw
      | cons v front2 =>
        exact joinSp_ne_nil v _ (hfront v (List.mem_cons_of_mem u (List.mem_cons_self v front2)))
    have hcons : (' ' :: joinSp (front ++ [w])) ≠ [] := by simp
    rw [List.getLast?_append_of_ne_nil _ hcons]
    rw [show (' ' :: joinSp (front ++ [w])) = [' '] ++ joinSp (front ++ [w]) from rfl]
    rw [List.getLast?_append_of_ne_nil _ hne]
    exact ih w (fun x hx => hfront x (List.mem_cons_of_mem u hx)) hw

/-- A scan whose input ends in a non-whitespace character produces a block
whose last word ends in that character. -/
theorem splitWsAux_getLast : ∀ (cs acc : List Char) (c : Char),
    cs.getLast? = some c → c.isWhitespace = false →
    ∃ front w, splitWsAux acc cs = front ++ [w] ∧ w.getLast? = some c := by
  intro cs
  induction cs with
  | nil => intro acc c h _; cases h
  | cons a t ih =>
    intro acc c h hc
    cases t with
    | nil =>
      have ha : a = c := by simpa using h
      subst ha
      refine ⟨[], (a :: acc).reverse, ?_, ?_⟩
      · simp only [splitWsAux, Bool.false_eq_true, if_neg, hc]
        rfl
      · simp
    | cons b t2 =>
      have h2 : (b :: t2).getLast? = some c := by simpa using h
      by_cases hws : a.isWhitespace
      · cases acc with
        | nil =>
          have hred : splitWsAux [] (a :: b :: t2) = splitWsAux [] (b :: t2) := by
            simp [splitWsAux, hws]
          rw [hred]
          exact ih [] c h2 hc
        | cons x y =>
          have hred : splitWsAux (x :: y) (a :: b :: t2)
              = (x :: y).reverse :: splitWsAux [] (b :: t2) := by
            simp [splitWsAux, hws]
          rw [hred]
          obtain ⟨front, w, heq, hlast⟩ := ih [] c h2 hc
          refine ⟨(x :: y).reverse :: front, w, ?_, hlast⟩
          rw [heq]
          rfl
      · have hws' : a.isWhitespace = false := Bool.eq_false_iff.mpr hws
        have hred : splitWsAux acc (a :: b :: t2) = splitWsAux (a :: acc) (b :: t2) := by
          simp [splitWsAux, hws']
        rw [hred]
        exact ih (a :: acc) c h2 hc

/-- A scan started with a nonempty accumulator yields a block whose first
word extends the accumulator with the next whitespace-free run. -/
theorem splitWsAux_head : ∀ (cs : List Char) (x : Char) (y : List Char),
    ∃ rest, splitWsAux (x :: y) cs
      = ((x :: y).reverse ++ cs.takeWhile (fun c => !c.isWhitespace)) :: rest := by
  intro cs
  induction cs with
  | nil =>
    intro x y
    exact ⟨[], by simp [splitWsAux]⟩
  | cons a t ih =>
    intro x y
    by_cases hws : a.isWhitespace
    · refine ⟨splitWsAux [] t, ?_⟩
      have hred : splitWsAux (x :: y) (a :: t) = (x :: y).reverse :: splitWsAux [] t := by
        simp [splitWsAux, hws]
      rw [hred, List.takeWhile_cons_of_neg (by simp [hws]), List.append_nil]
    · obtain ⟨rest, hr⟩ := ih a (x :: y)
      refine ⟨rest, ?_⟩
      have hws' : a.isWhitespace = false := Bool.eq_false_iff.mpr hws
      have hred : splitWsAux (x :: y) (a :: t) = splitWsAux (a :: x :: y) t := by
        simp [splitWsAux, hws']
      rw [hred, hr, List.takeWhile_cons_of_pos (by simp [hws'])]
      congr 1
      simp [List.append_assoc]

/-- A list with non-whitespace edges is unchanged by `rustTrim`. -/
theorem trim_eq_self (l : List Char)
    (h1 : ∀ c, l.head? = some c → c.isWhitespace = false)
    (h2 : ∀ c, l.getLast? = some c → c.isWhitespace = false) :
    rustTrim l = l := by
  unfold rustTrim
  have hd : l.dropWhile Char.isWhitespace = l := by
    cases l with
    | nil => rfl
    | cons a t =>
      rw [List.dropWhile_cons_of_neg]
      simp [h1 a rfl]
  rw [hd]
  have hd2 : l.reverse.dropWhile Char.isWhitespace = l.reverse := by
    cases hrev : l.reverse with
    | nil => rfl
    | cons a t =>
      have hlast : l.getLast? = some a := by
        rw [← List.head?_reverse, hrev]
        rfl
      rw [List.dropWhile_cons_of_neg]
      simp [h2 a hlast]
  rw [hd2, List.reverse_reverse]

/-- All words of `splitWs` are nonempty and whitespace-free. -/
theorem splitWs_good (cs : List Char) :
    ∀ w ∈ splitWs cs, w ≠ [] ∧ ∀ c ∈ w, c.isWhitespace = false :=
  splitWsAux_good cs [] (by intro x hx; cases hx)

/-- The space-join of good words has non-whitespace edges. -/
theorem joinSp_good_edges (ws : List (List Char))
    (h : ∀ w ∈ ws, w ≠ [] ∧ ∀ c ∈ w, c.isWhitespace = false) :
    (∀ c, (joinSp ws).head? = some c → c.isWhitespace = false) ∧
    (∀ c, (joinSp ws).getLast? = some c → c.isWhitespace = false) := by
  constructor
  · intro c hc
    cases ws with
    | nil => cases hc
    | cons w rest =>
      obtain ⟨hne, hchars⟩ := h w (List.mem_cons_self w rest)
      cases w with
      | nil => exact absurd rfl hne
      | cons a t =>
        rw [joinSp_head?_cons] at hc
        have hac : a = c := by simpa using hc
        subst hac
        exact hchars a (List.mem_cons_self a t)
  · intro c hc
    rcases List.eq_nil_or_concat ws with rfl | ⟨front, w, rfl⟩
    · cases hc
    · rw [List.concat_eq_append] at h hc
      have hwmem : w ∈ front ++ [w] := by simp
      rw [joinSp_getLast?_concat front w
        (fun u hu => (h u (List.mem_append_left _ hu)).1) ((h w hwmem).1)] at hc
      exact (h w hwmem).2 c (List.mem_of_getLast?_eq_some hc)

/-- `trimCollapse` is idempotent. -/
theorem trimCollapse_idem (v : List Char) :
    trimCollapse (trimCollapse v) = trimCollapse v := by
  have hgood := splitWs_good (rustTrim v)
  have hedges := joinSp_good_edges (splitWs (rustTrim v)) hgood
  show joinSp (splitWs (rustTrim (trimCollapse v))) = trimCollapse v
  unfold trimCollapse
  rw [trim_eq_self _ hedges.1 hedges.2, splitWs_joinSp _ hgood]

/-- `rustTrim` keeps a non-whitespace head. -/
theorem rustTrim_head? (v : List Char) (c : Char)
    (h : v.head? = some c) (hc : c.isWhitespace = false) :
    (rustTrim v).head? = some c := by
  unfold rustTrim
  have hd : v.dropWhile Char.isWhitespace = v := by
    cases v with
    | nil => cases h
    | cons a t =>
      have hac : a = c := by simpa using h
      subst hac
      rw [List.dropWhile_cons_of_neg]
      simp [hc]
  rw [hd]
  have hrl : v.reverse.getLast? = some c := by
    rw [List.getLast?_reverse]
    exact h
  have hthis := dropWhile_getLast? Char.isWhitespace v.reverse c hrl hc
  rw [List.head?_reverse]
  exact hthis

/-- `rustTrim` keeps a non-whitespace last element. -/
theorem rustTrim_getLast? (v : List Char) (c : Char)
    (h : v.getLast? = some c) (hc : c.isWhitespace = false) :
    (rustTrim v).getLast? = some c := by
  unfold rustTrim
  have hu : (v.dropWhile Char.isWhitespace).getLast? = some c :=
    dropWhile_getLast? Char.isWhitespace v c h hc
  have hhead : (v.dropWhile Char.isWhitespace).reverse.head? = some c := by
    rw [List.head?_reverse]
    exact hu
  have hd2 : (v.dropWhile Char.isWhitespace).reverse.dropWhile Char.isWhitespace
      = (v.dropWhile Char.isWhitespace).reverse := by
    cases hrev : (v.dropWhile Char.isWhitespace).reverse with
    | nil => rfl
    | cons a t =>
      rw [hrev] at hhead
      have hac : a = c := by simpa using hhead
      subst hac
      rw [List.dropWhile_cons_of_neg]
      simp [hc]
  rw [hd2, List.reverse_reverse]
  exact hu

/-- `trimCollapse` keeps a non-whitespace head. -/
theorem trimCollapse_head? (v : List Char) (c : Char)
    (h : v.head? = some c) (hc : c.isWhitespace = false) :
    (trimCollapse v).head? = some c := by
  unfold trimCollapse
  have ht := rustTrim_head? v c h hc
  cases hu : rustTrim v with
  | nil => rw [hu] at ht; cases ht
  | cons a t =>
    rw [hu] at ht
    have hac : a = c := by simpa using ht
    subst hac
    have hred : splitWs (a :: t) = splitWsAux [a] t := by
      unfold splitWs
      simp [splitWsAux, hc]
    obtain ⟨rest, hsplit⟩ := splitWsAux_head t a []
    rw [hred, hsplit]
    have hsimp : ([a] : List Char).reverse ++ t.takeWhile (fun c => !c.isWhitespace)
        = a :: t.takeWhile (fun c => !c.isWhitespace) := by simp
    rw [hsimp, joinSp_head?_cons]

/-- `trimCollapse` keeps a non-whitespace last element. -/
theorem trimCollapse_getLast? (v : List Char) (c : Char)
    (h : v.getLast? = some c) (hc : c.isWhitespace = false) :
    (trimCollapse v).getLast? = some c := by
  unfold trimCollapse
  have ht := rustTrim_getLast? v c h hc
  obtain ⟨front, w, heq, hlast⟩ := splitWsAux_getLast (rustTrim v) [] c ht hc
  have hgood := splitWs_good (rustTrim v)
  have hwne : w ≠ [] := by
    intro hw
    subst hw
    cases hlast
  have hfne : ∀ u ∈ front, u ≠ [] := by
    intro u hu
    have humem : u ∈ splitWs (rustTrim v) := by
      show u ∈ splitWsAux [] (rustTrim v)
      rw [heq]
      exact List.mem_append_left _ hu
    exact (hgood u humem).1
  show (joinSp (splitWsAux [] (rustTrim v))).getLast? = some c
  rw [heq, joinSp_getLast?_concat front w hfne hwne]
  exact hlast

/-- Every character of a space-join is a word character or a space. -/
theorem joinSp_mem : ∀ (ws : List (List Char)) (c : Char), c ∈ joinSp ws →
    (∃ w ∈ ws, c ∈ w) ∨ c = ' ' := by
  intro ws
  induction ws with
  | nil => intro c hc; cases hc
  | cons w rest ih =>
    intro c hc
    cases rest with
    | nil => exact Or.inl ⟨w, List.mem_cons_self w [], hc⟩
    | cons r rs =>
      have hj : joinSp (w :: r :: rs) = w ++ ' ' :: joinSp (r :: rs) := rfl
      rw [hj] at hc
      rcases List.mem_append.mp hc with hw | hrest
      · exact Or.inl ⟨w, List.mem_cons_self w (r :: rs), hw⟩
      · rcases List.mem_cons.mp hrest with hsp | hjn
        · exact Or.inr hsp
        · rcases ih c hjn with ⟨u, hu, hcu⟩ | hsp
          · exact Or.inl ⟨u, List.mem_cons_of_mem w hu, hcu⟩
          · exact Or.inr hsp

/-- Every character of a `splitWsAux` word comes from the accumulator or
the input. -/
theorem splitWsAux_mem : ∀ (cs acc w : List Char), w ∈ splitWsAux acc cs →
    ∀ c ∈ w, c ∈ acc ∨ c ∈ cs := by
  intro cs
  induction cs with
  | nil =>
    intro acc w hw c hc
    cases acc with
    | nil => simp [splitWsAux] at hw
    | cons x y =>
      simp only [splitWsAux, List.mem_singleton] at hw
      subst hw
      exact Or.inl (List.mem_reverse.mp hc)
  | cons a t ih =>
    intro acc w hw c hc
    by_cases hws : a.isWhitespace
    · cases acc with
      | nil =>
        have hred : splitWsAux [] (a :: t) = splitWsAux [] t := by simp [splitWsAux, hws]
        rw [hred] at hw
        rcases ih [] w hw c hc with h | h
        · cases h
        · exact Or.inr (List.mem_cons_of_mem a h)
      | cons x y =>
        have hred : splitWsAux (x :: y) (a :: t) = (x :: y).reverse :: splitWsAux [] t := by
          simp [splitWsAux, hws]
        rw [hred] at hw
        rcases List.mem_cons.mp hw with hw | hw
        · subst hw
          exact Or.inl (List.mem_reverse.mp hc)
        · rcases ih [] w hw c hc with h | h
          · cases h
          · exact Or.inr (List.mem_cons_of_mem a h)
    · have hws' : a.isWhitespace = false := Bool.eq_false_iff.mpr hws
      have hred : splitWsAux acc (a :: t) = splitWsAux (a :: acc) t := by
        simp [splitWsAux, hws']
      rw [hred] at hw
      rcases ih (a :: acc) w hw c hc with h | h
      · rcases List.mem_cons.mp h with h | h
        · subst h
          exact Or.inr (List.mem_cons_self c t)
        · exact Or.inl h
      · exact Or.inr (List.mem_cons_of_mem a h)

/-- `String.mk` and `String.toList` are inverse. -/
theorem toList_mk (l : List Char) : (String.mk l).toList = l := rfl

/-- `String.toList` and `String.mk` are inverse. -/
theorem mk_toList (s : String) : String.mk s.toList = s := rfl

/-- C9: name canonicalization is idempotent — for every string `s`,
`normalize_scheme_name (normalize_scheme_name s) = normalize_scheme_name s`. -/
theorem normalize_scheme_name_idem (s : String) :
    normalize_scheme_name (normalize_scheme_name s) = normalize_scheme_name s := by
  unfold normalize_scheme_name
  rw [toList_mk]
  set l0 : List Char :=
    (s.toList.map Char.toLower).filter (fun c => c.isAlphanum || c.isWhitespace) with hl0
  have hgood := splitWs_good l0
  have hedges := joinSp_good_edges (splitWs l0) hgood
  have htrim : rustTrim (joinSp (splitWs l0)) = joinSp (splitWs l0) :=
    trim_eq_self _ hedges.1 hedges.2
  rw [htrim]
  have hchar : ∀ c ∈ joinSp (splitWs l0),
      Char.toLower c = c ∧ (c.isAlphanum || c.isWhitespace) = true := by
    intro c hcmem
    rcases joinSp_mem _ c hcmem with ⟨w, hw, hcw⟩ | rfl
    · have hcl0 : c ∈ l0 := by
        rcases splitWsAux_mem l0 [] w hw c hcw with h | h
        · cases h
        · exact h
      rw [hl0] at hcl0
      constructor
      · rcases List.mem_map.mp (List.mem_of_mem_filter hcl0) with ⟨d, _, hd⟩
        rw [← hd, toLower_idem]
      · have hp := List.of_mem_filter hcl0
        exact hp
    · exact ⟨by decide, by decide⟩
  have hmap : (joinSp (splitWs l0)).map Char.toLower = joinSp (splitWs l0) :=
    map_eq_self_of _ _ (fun c hc => (hchar c hc).1)
  have hfilter : (joinSp (splitWs l0)).filter (fun c => c.isAlphanum || c.isWhitespace)
      = joinSp (splitWs l0) :=
    List.filter_eq_self.mpr (fun c hc => (hchar c hc).2)
  rw [hmap, hfilter, splitWs_joinSp _ hgood, htrim]

/-- The leading strip ends on an empty list or an alphanumeric head. -/
theorem stripLeading_shape : ∀ cs : List Char, stripLeadingNonAlnum cs = [] ∨
    ∃ a t, stripLeadingNonAlnum cs = a :: t ∧ a.isAlphanum = true := by
  intro cs
  induction cs with
  | nil => exact Or.inl rfl
  | cons c rest ih =>
    by_cases h : c.isAlphanum
    · exact Or.inr ⟨c, rest, by simp [stripLeadingNonAlnum, h], h⟩
    · have h' : c.isAlphanum = false := Bool.eq_false_iff.mpr h
      rw [show stripLeadingNonAlnum (c :: rest) = stripLeadingNonAlnum rest from by
        simp [stripLeadingNonAlnum, h']]
      exact ih

/-- The leading strip is the identity on lists that are empty or start
alphanumerically. -/
theorem stripLeading_eq_self (cs : List Char)
    (h : cs = [] ∨ ∃ a t, cs = a :: t ∧ a.isAlphanum = true) :
    stripLeadingNonAlnum cs = cs := by
  rcases h with rfl | ⟨a, t, rfl, ha⟩
  · rfl
  · simp [stripLeadingNonAlnum, ha]

/-- A successful trailing strip yields a prefix of the input that is empty
or ends alphanumerically. -/
theorem stripTrailingFuel_spec : ∀ (n : Nat) (cs r : List Char),
    stripTrailingFuel n cs = some r →
    (∃ k, r = cs.take k) ∧ (r = [] ∨ ∃ c, r.getLast? = some c ∧ c.isAlphanum = true) := by
  intro n
  induction n with
  | zero => intro cs r h; cases h
  | succ n ih =>
    intro cs r h
    simp only [stripTrailingFuel] at h
    cases hlast : cs.getLast? with
    | none =>
      rw [hlast] at h
      have hr : cs = r := by simpa using h
      subst hr
      have hnil : cs = [] := by
        cases cs with
        | nil => rfl
        | cons x y => simp [List.getLast?_concat, List.getLast?_eq_some_iff] at hlast
      subst hnil
      exact ⟨⟨0, rfl⟩, Or.inl rfl⟩
    | some c =>
      simp only [hlast] at h
      by_cases ha : c.isAlphanum
      · rw [if_pos ha] at h
        have hr : cs = r := by simpa using h
        subst hr
        exact ⟨⟨cs.length, (List.take_length cs).symm⟩, Or.inr ⟨c, hlast, ha⟩⟩
      · rw [if_neg ha] at h
        by_cases hlt : (cs.take (utf8Len cs - 1)).length < cs.length
        · rw [if_pos hlt] at h
          obtain ⟨⟨k, hk⟩, hshape⟩ := ih _ r h
          refine ⟨⟨min k (utf8Len cs - 1), ?_⟩, hshape⟩
          rw [hk, List.take_take]
        · rw [if_neg hlt] at h
          cases h

/-- A successful trailing strip yields a prefix of the input that is empty
or ends alphanumerically. -/
theorem stripTrailing_spec (cs r : List Char) (h : stripTrailingNonAlnum cs = some r) :
    (∃ k, r = cs.take k) ∧ (r = [] ∨ ∃ c, r.getLast? = some c ∧ c.isAlphanum = true) :=
  stripTrailingFuel_spec _ cs r h

/-- The trailing strip succeeds unchanged on lists that are empty or end
alphanumerically. -/
theorem stripTrailing_eq_self (cs : List Char)
    (h : cs = [] ∨ ∃ c, cs.getLast? = some c ∧ c.isAlphanum = true) :
    stripTrailingNonAlnum cs = some cs := by
  rcases h with rfl | ⟨c, hc, ha⟩
  · rfl
  · unfold stripTrailingNonAlnum
    simp only [stripTrailingFuel, hc, ha, if_pos]

/-- A nonempty prefix has the same head as the original list. -/
theorem head?_take_ne_nil (cs : List Char) (k : Nat) (h : cs.take k ≠ []) :
    (cs.take k).head? = cs.head? := by
  cases cs with
  | nil => simp at h
  | cons a t =>
    cases k with
    | zero => simp at h
    | succ k => rfl

/-- Shape of every `clean_scheme_name` output: it is the whitespace-collapse
of a list whose edges are alphanumeric (or the empty list). -/
theorem clean_output_shape (s t : String) (h : clean_scheme_name s = some t) :
    ∃ g : List Char, t.toList = trimCollapse g ∧
      (g = [] ∨ ∃ a u, g = a :: u ∧ a.isAlphanum = true) ∧
      (g = [] ∨ ∃ c, g.getLast? = some c ∧ c.isAlphanum = true) := by
  unfold clean_scheme_name at h
  split at h
  · exact absurd h (by simp)
  · split at h
    · exact absurd h (by simp)
    · rename_i x1 b hb x2 g h2
      have ht : String.mk (trimCollapse g) = t := Option.some.inj h
      obtain ⟨⟨k, hk⟩, hlast⟩ := stripTrailing_spec _ g h2
      refine ⟨g, by rw [← ht, toList_mk], ?_, hlast⟩
      rcases stripLeading_shape (suffixStage (globalStage (trimCollapse b)))
        with hnil | ⟨a, u, heq, ha⟩
      · left
        rw [hk, hnil, List.take_nil]
      · by_cases hg : g = []
        · exact Or.inl hg
        · right
          have hh : g.head? = some a := by
            rw [hk, head?_take_ne_nil _ _ (by rw [← hk]; exact hg), heq]
            rfl
          cases hgc : g with
          | nil => exact absurd hgc hg
          | cons x y =>
            rw [hgc] at hh
            have hxa : x = a := by simpa using hh
            subst hxa
            exact ⟨x, y, rfl, ha⟩

/-- C8 (amended): display-name cleaning is idempotent on every cleaned name
that the pattern-removal stages leave unchanged — if
`clean_scheme_name s = some t` and both the global-removal pass and the
suffix-strip pass map `t` to itself, then `clean_scheme_name t = some t`.
(Unrestricted idempotence fails: a cleaned name can still end in a
removable token, see the counterexample.) -/
theorem clean_scheme_name_idem_on_stable (s t : String)
    (h1 : clean_scheme_name s = some t)
    (h2 : globalStage t.toList = t.toList)
    (h3 : suffixStage t.toList = t.toList) :
    clean_scheme_name t = some t := by
  obtain ⟨g, htl, hhead, hlast⟩ := clean_output_shape s t h1
  have hidem : trimCollapse t.toList = t.toList := by
    rw [htl, trimCollapse_idem]
  have hheadu : t.toList = [] ∨ ∃ a u, t.toList = a :: u ∧ a.isAlphanum = true := by
    rcases hhead with rfl | ⟨a, u, hg, ha⟩
    · left
      rw [htl]
      rfl
    · right
      have hta : (trimCollapse g).head? = some a :=
        trimCollapse_head? g a (by rw [hg]; rfl) (alnum_not_ws ha)
      rw [← htl] at hta
      cases hu : t.toList with
      | nil => rw [hu] at hta; cases hta
      | cons x y =>
        rw [hu] at hta
        have hxa : x = a := by simpa using hta
        subst hxa
        exact ⟨x, y, rfl, ha⟩
  have hlastu : t.toList = [] ∨ ∃ c, t.toList.getLast? = some c ∧ c.isAlphanum = true := by
    rcases hlast with rfl | ⟨c, hg, hc⟩
    · left
      rw [htl]
      rfl
    · right
      have hta := trimCollapse_getLast? g c hg (alnum_not_ws hc)
      rw [← htl] at hta
      exact ⟨c, hta, hc⟩
  have e1 : stripLeadingNonAlnum t.toList = t.toList := stripLeading_eq_self _ hheadu
  have e2 : stripTrailingNonAlnum t.toList = some t.toList := stripTrailing_eq_self _ hlastu
  unfold clean_scheme_name
  simp only [e1, e2, hidem, h2, h3, show String.mk t.toList = t from rfl]

/-- C8 counterexample: the claim `clean_scheme_name (clean_scheme_name s) =
clean_scheme_name s` fails at `s = "Growth Growth"`, which cleans to
`"Growth"`, while `"Growth"` cleans further to `""`. -/
theorem clean_scheme_name_not_idempotent_example :
    clean_scheme_name "Growth Growth" = some "Growth" ∧
    clean_scheme_name "Growth" = some "" ∧
    some ("" : String) ≠ some "Growth" := by
  refine ⟨by decide, by decide, by decide⟩

/-- C8 witness: the amended idempotence applied at the spec's own example —
`"ABC Fund - Reg - Growth"` cleans to `"ABC Fund"`, which the pattern
stages leave unchanged, so cleaning it again returns it unchanged. -/
theorem clean_scheme_name_idem_on_stable_witness :
    clean_scheme_name "ABC Fund" = some "ABC Fund" ∧
    clean_scheme_name "ABC Fund - Reg - Growth" = some "ABC Fund" :=
  ⟨clean_scheme_name_idem_on_stable "ABC Fund - Reg - Growth" "ABC Fund"
      (by decide) (by decide) (by decide),
    by decide⟩

/-- C3 counterexample: a textual cell `"12.5%"` coerces to absent, not to
the number 12.5 — no `%`/`,`/currency/`Rs` stripping happens. -/
theorem percent_text_not_stripped_example :
    parse_float_option (some (Data.Str "12.5%")) = none ∧
    parse_float_option (some (Data.Str "12.5%")) ≠ some (RustFloat.finite (25 / 2)) := by
  decide

/-- C3 (amended): a textual cell is only trimmed of surrounding whitespace
(no character stripping); the trimmed text — with `""`, `"N/A"` and `"-"`
short-circuited to absent, which plain parsing rejects anyway — is parsed
as a decimal number and parse failure yields absent.  In particular
`"12.5%"` is absent and `" 12.5 "` coerces to 12.5. -/
theorem parse_float_text_amended :
    (∀ s : String, parse_float_option (some (Data.Str s)) = parseF32Chars (rustTrim s.toList)) ∧
    parse_float_option (some (Data.Str "12.5%")) = none ∧
    parse_float_option (some (Data.Str " 12.5 ")) = some (RustFloat.finite (25 / 2)) := by
  refine ⟨?_, by decide, ?_⟩
  case refine_2 =>
    have h1 : parse_float_option (some (Data.Str " 12.5 "))
        = some (buildF32 false ['1', '2'] ['5'] 0) := rfl
    have hb24 : pow2 24 = 16777216 := by norm_num [pow2]
    have hb127 : pow2 127 = 170141183460469231731687303715884105728 := by
      norm_num [pow2]
    have h2 : buildF32 false ['1', '2'] ['5'] 0 = RustFloat.finite (25 / 2) := by
      unfold buildF32 clampToF32
      rw [show digitsVal (['1', '2'] ++ ['5']) = 125 from rfl]
      norm_num [f32OverflowBound, hb24, hb127, pow10]
    rw [h1, h2]
  intro s
  show (if rustTrim s.toList = "".toList ∨ rustTrim s.toList = "N/A".toList ∨
      rustTrim s.toList = "-".toList then none
    else parseF32Chars (rustTrim s.toList)) = parseF32Chars (rustTrim s.toList)
  by_cases hb : rustTrim s.toList = "".toList ∨ rustTrim s.toList = "N/A".toList ∨
      rustTrim s.toList = "-".toList
  · rw [if_pos hb]
    rcases hb with h | h | h <;> rw [h] <;> decide
  · rw [if_neg hb]

/-- C4 (code bug): a textual cell spelling `"inf"` or `"NaN"` passes through
cell coercion as a non-finite number, although the coercion's own
`Data::Float` branch filters non-finite values and the spec forbids any
non-finite result. -/
theorem parse_float_nonfinite_leak :
    parse_float_option (some (Data.Str "inf")) = some RustFloat.inf ∧
    parse_float_option (some (Data.Str "NaN")) = some RustFloat.nan ∧
    RustFloat.inf.is_finite = false ∧
    RustFloat.nan.is_nan = true := by
  decide

/-- A record with the given labels and no numeric fields, used by the
concrete evidence below. -/
def mkFund (cat nm date : String) : FundData :=
  { category := cat, scheme_name := nm, launch_date := date,
    fund_size_apr25 := none, fund_size_may25 := none, latest_nav := none,
    month_1 := none, months_3 := none, months_6 := none, ytd := none,
    year_1 := none, years_2 := none, years_3 := none, years_5 := none }

/-- C5 counterexample: on the pooled names
`["Alpha Fund", "Alpha Fund", "Beta Fund"]` deduplication keeps the *first*
"Alpha Fund" record — the output has one record named "Alpha Fund",
not zero as the claim states. -/
theorem dedup_keeps_first_example :
    remove_all_duplicates
        [mkFund "Eq" "Alpha Fund" "2020", mkFund "Eq" "Alpha Fund" "2021",
          mkFund "Eq" "Beta Fund" "2020"]
      = [mkFund "Eq" "Alpha Fund" "2020", mkFund "Eq" "Beta Fund" "2020"] ∧
    (remove_all_duplicates
        [mkFund "Eq" "Alpha Fund" "2020", mkFund "Eq" "Alpha Fund" "2021",
          mkFund "Eq" "Beta Fund" "2020"]).countP
        (fun f => f.scheme_name == "Alpha Fund") = 1 ∧
    (1 : Nat) ≠ 0 := by
  decide

/-- First-seen retention invariant of the dedup worker, generalized over the
seen-set. -/
theorem removeDupsAux_spec (funds : List FundData) : ∀ (seen : List String),
    (removeDupsAux seen funds).Pairwise
      (fun f g => normalize_scheme_name f.scheme_name ≠ normalize_scheme_name g.scheme_name) ∧
    (∀ f ∈ removeDupsAux seen funds,
      seen.contains (normalize_scheme_name f.scheme_name) = false) ∧
    (∀ f ∈ funds, seen.contains (normalize_scheme_name f.scheme_name) = true ∨
      ∃ g ∈ removeDupsAux seen funds,
        normalize_scheme_name g.scheme_name = normalize_scheme_name f.scheme_name) := by
  induction funds with
  | nil =>
    intro seen
    refine ⟨List.Pairwise.nil, ?_, ?_⟩
    · intro f hf
      exact absurd hf (by simp [removeDupsAux])
    · intro f hf
      cases hf
  | cons f rest ih =>
    intro seen
    by_cases hc : seen.contains (normalize_scheme_name f.scheme_name) = true
    · have hred : removeDupsAux seen (f :: rest) = removeDupsAux seen rest := by
        show (if seen.contains (normalize_scheme_name f.scheme_name) = true then
            removeDupsAux seen rest
          else f :: removeDupsAux (normalize_scheme_name f.scheme_name :: seen) rest)
          = removeDupsAux seen rest
        rw [if_pos hc]
      rw [hred]
      obtain ⟨hpw, hfresh, hcover⟩ := ih seen
      refine ⟨hpw, hfresh, ?_⟩
      intro x hx
      rcases List.mem_cons.mp hx with rfl | hx
      · exact Or.inl hc
      · exact hcover x hx
    · have hc' : seen.contains (normalize_scheme_name f.scheme_name) = false :=
        Bool.eq_false_iff.mpr hc
      have hred : removeDupsAux seen (f :: rest)
          = f :: removeDupsAux (normalize_scheme_name f.scheme_name :: seen) rest := by
        show (if seen.contains (normalize_scheme_name f.scheme_name) = true then
            removeDupsAux seen rest
          else f :: removeDupsAux (normalize_scheme_name f.scheme_name :: seen) rest)
          = f :: removeDupsAux (normalize_scheme_name f.scheme_name :: seen) rest
        rw [if_neg hc]
      rw [hred]
      obtain ⟨hpw, hfresh, hcover⟩ := ih (normalize_scheme_name f.scheme_name :: seen)
      refine ⟨?_, ?_, ?_⟩
      · refine List.pairwise_cons.mpr ⟨?_, hpw⟩
        intro g hg
        have hfr := hfresh g hg
        simp only [List.contains_cons, Bool.or_eq_false_iff, beq_eq_false_iff_ne] at hfr
        exact fun hfg => hfr.1 (hfg ▸ rfl)
      · intro x hx
        rcases List.mem_cons.mp hx with rfl | hx
        · exact hc'
        · have hfr := hfresh x hx
          simp only [List.contains_cons, Bool.or_eq_false_iff] at hfr
          exact hfr.2
      · intro x hx
        rcases List.mem_cons.mp hx with rfl | hx
        · exact Or.inr ⟨x, List.mem_cons_self x _, rfl⟩
        · rcases hcover x hx with hin | ⟨g, hg, hgx⟩
          · simp only [List.contains_cons, Bool.or_eq_true, beq_iff_eq] at hin
            rcases hin with heq | hin
            · exact Or.inr ⟨f, List.mem_cons_self f _, heq.symm⟩
            · exact Or.inl hin
          · exact Or.inr ⟨g, List.mem_cons_of_mem f hg, hgx⟩

/-- C5 (amended): on the pooled list with names
`["Alpha Fund", "Alpha Fund", "Beta Fund"]` deduplication keeps exactly one
"Alpha Fund" (the first) and one "Beta Fund"; in general it keeps the first
record seen per canonical name: the output has pairwise-distinct canonical
names and every pooled record's canonical name is represented. -/
theorem remove_all_duplicates_first_seen :
    (remove_all_duplicates
        [mkFund "Eq" "Alpha Fund" "2020", mkFund "Eq" "Alpha Fund" "2021",
          mkFund "Eq" "Beta Fund" "2020"]
      = [mkFund "Eq" "Alpha Fund" "2020", mkFund "Eq" "Beta Fund" "2020"]) ∧
    ∀ funds : List FundData,
      (remove_all_duplicates funds).Pairwise
        (fun f g => normalize_scheme_name f.scheme_name ≠ normalize_scheme_name g.scheme_name) ∧
      ∀ f ∈ funds, ∃ g ∈ remove_all_duplicates funds,
        normalize_scheme_name g.scheme_name = normalize_scheme_name f.scheme_name := by
  refine ⟨by decide, ?_⟩
  intro funds
  obtain ⟨hpw, _, hcover⟩ := removeDupsAux_spec funds []
  refine ⟨hpw, ?_⟩
  intro f hf
  rcases hcover f hf with hin | h
  · cases hin
  · exact h

/-- C5 witness: the general first-seen property applied at the concrete
pooled list of the claim. -/
theorem remove_all_duplicates_first_seen_witness :
    remove_all_duplicates
        [mkFund "Eq" "Alpha Fund" "2020", mkFund "Eq" "Alpha Fund" "2021",
          mkFund "Eq" "Beta Fund" "2020"]
      = [mkFund "Eq" "Alpha Fund" "2020", mkFund "Eq" "Beta Fund" "2020"] :=
  remove_all_duplicates_first_seen.1

/-- Unfolding equation for `findHeaderAux` on a nonempty row list. -/
theorem findHeaderAux_cons (grid : Grid) (r : Nat) (rest : List Nat) :
    findHeaderAux grid (r :: rest) =
      match cellGet grid r 0 with
      | some cell =>
        if containsStr (lowerStr (dataToString cell)) "scheme name" = true then Except.ok r
        else findHeaderAux grid rest
      | none => findHeaderAux grid rest := rfl

/-- The only error `findHeaderAux` ever produces is the constant header
message. -/
theorem findHeaderAux_error_val (grid : Grid) : ∀ (l : List Nat) (e : String),
    findHeaderAux grid l = Except.error e → e = "Header row not found" := by
  intro l
  induction l with
  | nil =>
    intro e h
    exact (Except.error.inj h).symm
  | cons r rest ih =>
    intro e h
    rw [findHeaderAux_cons] at h
    cases hcell : cellGet grid r 0 with
    | none =>
      simp only [hcell] at h
      exact ih e h
    | some cell =>
      simp only [hcell] at h
      by_cases hcond : containsStr (lowerStr (dataToString cell)) "scheme name" = true
      · rw [if_pos hcond] at h
        exact Except.noConfusion h
      · rw [if_neg hcond] at h
        exact ih e h

/-- The only error `find_header_row` ever produces is the constant header
message. -/
theorem find_header_row_error_val (g : Grid) (e : String)
    (h : find_header_row g = Except.error e) : e = "Header row not found" :=
  findHeaderAux_error_val g _ e h

/-- A failed header search fails the whole sheet extraction with the same
error. -/
theorem extract_fund_data_error (category : String) (g : Grid) (e : String)
    (h : find_header_row g = Except.error e) :
    extract_fund_data category g = Except.error e := by
  unfold extract_fund_data
  rw [h]

/-- The only error `extract_fund_data` ever produces is the constant header
message. -/
theorem extract_fund_data_error_val (category : String) (g : Grid) (e : String)
    (h : extract_fund_data category g = Except.error e) : e = "Header row not found" := by
  unfold extract_fund_data at h
  cases hf : find_header_row g with
  | error e2 =>
    simp only [hf] at h
    have he : e2 = e := Except.error.inj h
    exact he ▸ find_header_row_error_val g e2 hf
  | ok hrow =>
    simp only [hf] at h
    exact Except.noConfusion h

/-- Unfolding equation for the sheet loop. -/
theorem process_excel_sheets_cons (s : SheetE) (rest : List SheetE) :
    process_excel_sheets (s :: rest) =
      if skip_sheets.contains s.name = true then process_excel_sheets rest
      else
        match s.range with
        | none => process_excel_sheets rest
        | some g =>
          match extract_fund_data s.name g with
          | Except.error e => Except.error e
          | Except.ok recs =>
            match process_excel_sheets rest with
            | Except.error e => Except.error e
            | Except.ok more => Except.ok (recs ++ more) := rfl

/-- Sheet 1 of the two-sheet counterexample workbook: column 0 of its rows
never mentions "scheme name". -/
def gridNoHeader : Grid :=
  [[some (Data.Str "Random")], [some (Data.Str "Stuff")]]

/-- Sheet 2 of the counterexample workbook: a proper header row and one
valid data row. -/
def gridWithHeader : Grid :=
  [[some (Data.Str "Scheme Name"), some (Data.Str "Launch Date")],
    [some (Data.Str "Fund X"), some (Data.Str "2020-01-01")]]

/-- The two-sheet workbook: the first sheet has no header row, the second
holds one extractable record. -/
def wbC1 : List SheetE :=
  [{ name := "Sheet1", range := some gridNoHeader },
    { name := "Sheet2", range := some gridWithHeader }]

/-- C1 counterexample: with a headerless first sheet, the whole ingestion
fails with the header error — it does not continue and collect the second
sheet's record, although that sheet alone extracts one record. -/
theorem header_missing_aborts_run_example :
    process_excel_sheets wbC1 = Except.error "Header row not found" ∧
    extract_fund_data "Sheet2" gridWithHeader
      = Except.ok [mkFund "Sheet2" "Fund X" "2020-01-01"] :=
  ⟨rfl, rfl⟩

/-- C1 (amended): if the header row is not found in any sheet that the run
actually processes (not on the skip list, range readable), the whole
ingestion run fails with the error "Header row not found" instead of
continuing with the remaining sheets. -/
theorem header_missing_aborts_run (sheets : List SheetE) (s : SheetE) (g : Grid)
    (hmem : s ∈ sheets) (hskip : skip_sheets.contains s.name = false)
    (hrange : s.range = some g)
    (hhdr : find_header_row g = Except.error "Header row not found") :
    process_excel_sheets sheets = Except.error "Header row not found" := by
  induction sheets with
  | nil => cases hmem
  | cons s0 rest ih =>
    rcases List.mem_cons.mp hmem with rfl | hmem2
    · rw [process_excel_sheets_cons, if_neg (by rw [hskip]; simp)]
      simp only [hrange,
        extract_fund_data_error s.name g "Header row not found" hhdr]
    · rw [process_excel_sheets_cons]
      by_cases hskip0 : skip_sheets.contains s0.name = true
      · rw [if_pos hskip0]
        exact ih hmem2
      · rw [if_neg hskip0]
        cases hr0 : s0.range with
        | none =>
          simp only [hr0]
          exact ih hmem2
        | some g0 =>
          simp only [hr0]
          cases hx : extract_fund_data s0.name g0 with
          | error e0 =>
            simp only [hx]
            rw [extract_fund_data_error_val s0.name g0 e0 hx]
          | ok recs =>
            simp only [hx, ih hmem2]

/-- C1 witness: the amended statement applied at the concrete two-sheet
workbook. -/
theorem header_missing_aborts_run_witness :
    process_excel_sheets wbC1 = Except.error "Header row not found" :=
  header_missing_aborts_run wbC1 { name := "Sheet1", range := some gridNoHeader }
    gridNoHeader (List.Mem.head _) rfl rfl rfl

/-- C7: if connecting to the store or building the new table fails during a
refresh, the refresh call returns an error and the currently-served
virtual table is left exactly as it was before. -/
theorem refresh_preserves_on_failure {Conn : Type} (current : VirtualTable)
    (connect : Except String Conn)
    (query : Conn → Except String (List CombinedSchemeData))
    (hfail : ∀ (c : Conn) (rows : List CombinedSchemeData),
      connect = Except.ok c → query c ≠ Except.ok rows) :
    (refresh_virtual_table current connect query).1 = current ∧
    ∃ e, (refresh_virtual_table current connect query).2 = Except.error e := by
  cases connect with
  | error e => exact ⟨rfl, e, rfl⟩
  | ok c =>
    cases hq : query c with
    | error e =>
      unfold refresh_virtual_table build_virtual_table
      simp only [hq]
      refine ⟨?_, e, ?_⟩ <;> simp
    | ok rows => exact absurd hq (hfail c rows rfl)

/-- Concrete combined record used by the search and index evidence. -/
def mkCombined (nm : String) : CombinedSchemeData :=
  { dfltCombined with scheme_name := nm, normalized_name := normalize_scheme_name nm }

/-- A concrete two-record virtual table reachable from `VirtualTable.new`. -/
def vtEx : VirtualTable :=
  (VirtualTable.new.add_record (mkCombined "Alpha Fund")).add_record (mkCombined "Beta Fund")

/-- C7 witness: a refresh over a dead connection reports the error and
leaves the concrete served table untouched. -/
theorem refresh_preserves_on_failure_witness :
    (refresh_virtual_table vtEx (Except.error "connection refused")
        (fun _ : Unit => Except.ok [])).1 = vtEx ∧
    ∃ e, (refresh_virtual_table vtEx (Except.error "connection refused")
        (fun _ : Unit => Except.ok [])).2 = Except.error e :=
  refresh_preserves_on_failure vtEx (Except.error "connection refused")
    (fun _ => Except.ok []) (fun _ _ hc => Except.noConfusion hc)

/-- C6: per-record contract of the reconciler.  Each record's name is
cleaned; if a stored row carries the cleaned key, the UPDATE path runs and
counts one; otherwise the INSERT path runs — it either fails externally,
in which case the record is skipped and the loop continues with the
remaining records and an unchanged count, or appends a row under the
cleaned key and counts one.  An empty batch returns the accumulated count,
and the public entry point starts the loop with a zero count. -/
theorem insert_fund_data_step (failOn : Nat → Bool) (store : List StoredRow)
    (inserted : Nat) (fund : FundData) (rest : List FundData) (key : String)
    (hkey : clean_scheme_name fund.scheme_name = some key) :
    insertFundsLoop failOn store inserted (fund :: rest) =
      (if store.any (fun r => r.scheme_name == key) then
        insertFundsLoop (fun n => failOn (n + 1))
          (store.map (fun r => if r.scheme_name == key then applyFund fund key else r))
          (inserted + 1) rest
      else if failOn 0 then
        insertFundsLoop (fun n => failOn (n + 1)) store inserted rest
      else
        insertFundsLoop (fun n => failOn (n + 1)) (store ++ [applyFund fund key])
          (inserted + 1) rest) ∧
    insertFundsLoop failOn store inserted [] = some (store, inserted) ∧
    insert_fund_data failOn store (fund :: rest)
      = insertFundsLoop failOn store 0 (fund :: rest) := by
  refine ⟨?_, rfl, rfl⟩
  have hcons : insertFundsLoop failOn store inserted (fund :: rest) =
      match clean_scheme_name fund.scheme_name with
      | none => none
      | some k =>
        if (updateExec store k fund).2 == 0 then
          match insertExec (updateExec store k fund).1 k fund (failOn 0) with
          | Except.ok res =>
            insertFundsLoop (fun n => failOn (n + 1)) res.1
              (if res.2 > 0 then inserted + 1 else inserted) rest
          | Except.error _ =>
            insertFundsLoop (fun n => failOn (n + 1)) (updateExec store k fund).1
              inserted rest
        else insertFundsLoop (fun n => failOn (n + 1)) (updateExec store k fund).1
          (inserted + 1) rest := rfl
  rw [hcons]
  simp only [hkey]
  by_cases hany : store.any (fun r => r.scheme_name == key) = true
  · rw [if_pos hany]
    obtain ⟨x, hxmem, hxp⟩ := List.any_eq_true.mp hany
    have hcount : (updateExec store key fund).2 ≠ 0 := by
      show store.countP (fun r => r.scheme_name == key) ≠ 0
      intro hzero
      exact absurd hxp (by simpa using List.countP_eq_zero.mp hzero x hxmem)
    rw [if_neg (by simpa using hcount)]
    rfl
  · have hnone : ∀ r ∈ store, ¬(r.scheme_name == key) = true :=
      List.any_eq_false.mp (Bool.eq_false_iff.mpr hany)
    have hcount : (updateExec store key fund).2 = 0 := by
      show store.countP (fun r => r.scheme_name == key) = 0
      exact List.countP_eq_zero.mpr hnone
    have hupd1 : (updateExec store key fund).1 = store := by
      show store.map (fun r => if r.scheme_name == key then applyFund fund key else r) = store
      refine map_eq_self_of _ store ?_
      intro r hr
      rw [if_neg (hnone r hr)]
    rw [if_pos (by simpa using hcount), if_neg hany, hupd1]
    by_cases hfail0 : failOn 0 = true
    · have hins : insertExec store key fund (failOn 0) = Except.error "insert failed" := by
        unfold insertExec
        rw [if_pos hfail0]
      rw [hins, if_pos hfail0]
    · have hfail0' : failOn 0 = false := Bool.eq_false_iff.mpr hfail0
      have hins : insertExec store key fund (failOn 0)
          = Except.ok (store ++ [applyFund fund key], 1) := by
        unfold insertExec
        rw [if_neg hfail0, if_neg (by rw [Bool.eq_false_iff.mpr hany]; simp)]
      rw [hins, if_neg hfail0]
      rfl

/-- C6 witness: a one-record batch against an empty store, with no external
failure — the name is cleaned to "Alpha Fund", the update matches nothing,
the insert stores the cleaned-name row, and the count is 1. -/
theorem insert_fund_data_step_witness :
    insert_fund_data (fun _ => false) []
        [mkFund "Eq" "Alpha Fund - Reg - Growth" "2020"]
      = some ([applyFund (mkFund "Eq" "Alpha Fund - Reg - Growth" "2020") "Alpha Fund"], 1) := by
  have hstep := insert_fund_data_step (fun _ => false) [] 0
    (mkFund "Eq" "Alpha Fund - Reg - Growth" "2020") [] "Alpha Fund" (by decide)
  show insertFundsLoop (fun _ => false) [] 0 [mkFund "Eq" "Alpha Fund - Reg - Growth" "2020"]
    = some ([applyFund (mkFund "Eq" "Alpha Fund - Reg - Growth" "2020") "Alpha Fund"], 1)
  rw [hstep.1]
  rfl

/-- Freshness of a run of appends: each appended record's normalized name
differs from that of every record accumulated before it. -/
def freshFrom (acc : List CombinedSchemeData) : List CombinedSchemeData → Prop
  | [] => True
  | r :: rest =>
    (∀ x ∈ acc, x.normalized_name ≠ r.normalized_name) ∧ freshFrom (acc ++ [r]) rest

/-- Freshness composes across consecutive runs. -/
theorem freshFrom_append (t1 : List CombinedSchemeData) :
    ∀ (acc t2 : List CombinedSchemeData),
      freshFrom acc t1 → freshFrom (acc ++ t1) t2 → freshFrom acc (t1 ++ t2) := by
  induction t1 with
  | nil =>
    intro acc t2 _ h2
    simpa using h2
  | cons r t1 ih =>
    intro acc t2 h1 h2
    obtain ⟨hr, h1tail⟩ := h1
    refine ⟨hr, ih (acc ++ [r]) t2 h1tail ?_⟩
    simpa [List.append_assoc] using h2

/-- The exact-match loop appends indexed records while respecting the
limit. -/
theorem pushLimited_spec (vt : VirtualTable) (limit : Nat) :
    ∀ (idxs : List Nat) (acc : List CombinedSchemeData), acc.length ≤ limit →
      ∃ t, pushLimited vt limit acc idxs = acc ++ t ∧
        (acc ++ t).length ≤ limit ∧
        ∀ r ∈ t, ∃ i ∈ idxs, r = dataGet vt i := by
  intro idxs
  induction idxs with
  | nil =>
    intro acc hacc
    refine ⟨[], by simp [pushLimited], by simpa using hacc, ?_⟩
    intro r hr
    cases hr
  | cons i restI ih =>
    intro acc hacc
    show ∃ t, (if limit ≤ acc.length then acc
        else pushLimited vt limit (acc ++ [dataGet vt i]) restI) = acc ++ t ∧ _ ∧ _
    by_cases hlim : limit ≤ acc.length
    · refine ⟨[], by rw [if_pos hlim]; simp, by simpa using hacc, ?_⟩
      intro r hr
      cases hr
    · have hlen : (acc ++ [dataGet vt i]).length ≤ limit := by
        simp only [List.length_append, List.length_singleton]
        omega
      obtain ⟨t, heq, hle, hmemb⟩ := ih (acc ++ [dataGet vt i]) hlen
      refine ⟨dataGet vt i :: t, ?_, ?_, ?_⟩
      · rw [if_neg hlim, heq]
        simp
      · simpa [List.append_assoc] using hle
      · intro r hr
        rcases List.mem_cons.mp hr with rfl | hr
        · exact ⟨i, List.mem_cons_self i restI, rfl⟩
        · obtain ⟨j, hj, hre⟩ := hmemb r hr
          exact ⟨j, List.mem_cons_of_mem i hj, hre⟩

/-- The partial-match inner loop appends only records whose normalized name
is fresh, respecting the limit. -/
theorem partialInner_spec (vt : VirtualTable) (limit : Nat) :
    ∀ (idxs : List Nat) (acc : List CombinedSchemeData), acc.length ≤ limit →
      ∃ t, partialInner vt limit acc idxs = acc ++ t ∧
        (acc ++ t).length ≤ limit ∧
        (∀ r ∈ t, ∃ i ∈ idxs, r = dataGet vt i) ∧
        freshFrom acc t := by
  intro idxs
  induction idxs with
  | nil =>
    intro acc hacc
    refine ⟨[], by simp [partialInner], by simpa using hacc, ?_, trivial⟩
    intro r hr
    cases hr
  | cons i restI ih =>
    intro acc hacc
    show ∃ t, (if limit ≤ acc.length then acc
        else if acc.any (fun r => r.normalized_name == (dataGet vt i).normalized_name) then
          partialInner vt limit acc restI
        else partialInner vt limit (acc ++ [dataGet vt i]) restI) = acc ++ t ∧ _ ∧ _ ∧ _
    by_cases hlim : limit ≤ acc.length
    · refine ⟨[], by rw [if_pos hlim]; simp, by simpa using hacc, ?_, trivial⟩
      intro r hr
      cases hr
    · by_cases hdup :
          (acc.any (fun r => r.normalized_name == (dataGet vt i).normalized_name)) = true
      · obtain ⟨t, heq, hle, hmemb, hfr⟩ := ih acc hacc
        refine ⟨t, ?_, hle, ?_, hfr⟩
        · rw [if_neg hlim, if_pos hdup, heq]
        · intro r hr
          obtain ⟨j, hj, hre⟩ := hmemb r hr
          exact ⟨j, List.mem_cons_of_mem i hj, hre⟩
      · have hlen : (acc ++ [dataGet vt i]).length ≤ limit := by
          simp only [List.length_append, List.length_singleton]
          omega
        obtain ⟨t, heq, hle, hmemb, hfr⟩ := ih (acc ++ [dataGet vt i]) hlen
        refine ⟨dataGet vt i :: t, ?_, ?_, ?_, ?_⟩
        · rw [if_neg hlim, if_neg hdup, heq]
          simp
        · simpa [List.append_assoc] using hle
        · intro r hr
          rcases List.mem_cons.mp hr with rfl | hr
          · exact ⟨i, List.mem_cons_self i restI, rfl⟩
          · obtain ⟨j, hj, hre⟩ := hmemb r hr
            exact ⟨j, List.mem_cons_of_mem i hj, hre⟩
        · refine ⟨?_, hfr⟩
          intro x hx
          have hne := List.any_eq_false.mp (Bool.eq_false_iff.mpr hdup) x hx
          simpa using hne

/-- Unfolding equation for the partial-match outer loop. -/
theorem partialOuter_cons (vt : VirtualTable) (key : String) (limit : Nat)
    (acc : List CombinedSchemeData) (nm : String) (idxs : List Nat)
    (restE : List (String × List Nat)) :
    partialOuter vt key limit acc ((nm, idxs) :: restE) =
      (if (containsStr nm key && nm != key) = true then
        (if limit ≤ (partialInner vt limit acc idxs).length
          then partialInner vt limit acc idxs
          else partialOuter vt key limit (partialInner vt limit acc idxs) restE)
      else
        (if limit ≤ acc.length then acc
          else partialOuter vt key limit acc restE)) := by
  by_cases hcond : (containsStr nm key && nm != key) = true
  · simp only [partialOuter, hcond, if_true]
  · simp only [partialOuter, hcond, if_false, Bool.false_eq_true]

/-- The partial-match outer loop appends only fresh records taken from
entries strictly containing the query key, respecting the limit. -/
theorem partialOuter_spec (vt : VirtualTable) (key : String) (limit : Nat) :
    ∀ (entries : List (String × List Nat)) (acc : List CombinedSchemeData),
      acc.length ≤ limit →
      ∃ t, partialOuter vt key limit acc entries = acc ++ t ∧
        (acc ++ t).length ≤ limit ∧
        (∀ r ∈ t, ∃ nm idxs, (nm, idxs) ∈ entries ∧ containsStr nm key = true ∧
          nm ≠ key ∧ ∃ i ∈ idxs, r = dataGet vt i) ∧
        freshFrom acc t := by
  intro entries
  induction entries with
  | nil =>
    intro acc hacc
    refine ⟨[], by simp [partialOuter], by simpa using hacc, ?_, trivial⟩
    intro r hr
    cases hr
  | cons e restE ih =>
    intro acc hacc
    obtain ⟨nm, idxs⟩ := e
    rw [partialOuter_cons]
    by_cases hcond : (containsStr nm key && nm != key) = true
    · rw [if_pos hcond]
      obtain ⟨hcontains, hne⟩ : containsStr nm key = true ∧ (nm != key) = true := by
        simpa using hcond
      have hne2 : nm ≠ key := bne_iff_ne.mp hne
      obtain ⟨t1, heq1, hle1, hmemb1, hfr1⟩ := partialInner_spec vt limit idxs acc hacc
      rw [heq1]
      by_cases hlim2 : limit ≤ (acc ++ t1).length
      · rw [if_pos hlim2]
        refine ⟨t1, rfl, hle1, ?_, hfr1⟩
        intro r hr
        obtain ⟨i, hi, hre⟩ := hmemb1 r hr
        exact ⟨nm, idxs, List.mem_cons_self _ _, hcontains, hne2, i, hi, hre⟩
      · rw [if_neg hlim2]
        obtain ⟨t2, heq2, hle2, hmemb2, hfr2⟩ := ih (acc ++ t1) hle1
        refine ⟨t1 ++ t2, ?_, ?_, ?_, ?_⟩
        · rw [heq2, List.append_assoc]
        · rw [← List.append_assoc]
          exact hle2
        · intro r hr
          rcases List.mem_append.mp hr with hr | hr
          · obtain ⟨i, hi, hre⟩ := hmemb1 r hr
            exact ⟨nm, idxs, List.mem_cons_self _ _, hcontains, hne2, i, hi, hre⟩
          · obtain ⟨nm2, idxs2, hmem2, hc2, hne22, i, hi, hre⟩ := hmemb2 r hr
            exact ⟨nm2, idxs2, List.mem_cons_of_mem _ hmem2, hc2, hne22, i, hi, hre⟩
        · exact freshFrom_append t1 acc t2 hfr1 hfr2
    · rw [if_neg hcond]
      by_cases hlim2 : limit ≤ acc.length
      · rw [if_pos hlim2]
        refine ⟨[], by simp, by simpa using hacc, ?_, trivial⟩
        intro r hr
        cases hr
      · rw [if_neg hlim2]
        obtain ⟨t2, heq2, hle2, hmemb2, hfr2⟩ := ih acc hacc
        refine ⟨t2, heq2, hle2, ?_, hfr2⟩
        intro r hr
        obtain ⟨nm2, idxs2, hmem2, hc2, hne22, i, hi, hre⟩ := hmemb2 r hr
        exact ⟨nm2, idxs2, List.mem_cons_of_mem _ hmem2, hc2, hne22, i, hi, hre⟩

/-- The exact pass alone respects the limit. -/
theorem exactPass_length (vt : VirtualTable) (key : String) (limit : Nat) :
    (exactPass vt key limit).length ≤ limit := by
  unfold exactPass
  cases hli : lookupIdx vt.name_index key with
  | none => simp
  | some idxs =>
    show (pushLimited vt limit [] idxs).length ≤ limit
    obtain ⟨t, heq, hle, _⟩ := pushLimited_spec vt limit idxs [] (by simp)
    rw [heq]
    exact hle

/-- C2: `search` returns at most `limit` records; the result is the exact
pass followed by records appended by the substring pass, each of which
comes from an index entry whose key strictly contains the canonicalized
query, and each of which carries a normalized name not already present
among the earlier results. -/
theorem search_spec (vt : VirtualTable) (q : String) (limit : Nat) :
    (vt.search q limit).length ≤ limit ∧
    ∃ p, vt.search q limit = exactPass vt (normalize_scheme_name q) limit ++ p ∧
      (∀ r ∈ p, ∃ nm idxs, (nm, idxs) ∈ vt.name_index ∧
        containsStr nm (normalize_scheme_name q) = true ∧
        nm ≠ normalize_scheme_name q ∧ ∃ i ∈ idxs, r = dataGet vt i) ∧
      freshFrom (exactPass vt (normalize_scheme_name q) limit) p := by
  unfold VirtualTable.search
  by_cases hlt : (exactPass vt (normalize_scheme_name q) limit).length < limit
  · rw [if_pos hlt]
    obtain ⟨p, heq, hle, hmemb, hfr⟩ := partialOuter_spec vt (normalize_scheme_name q) limit
      vt.name_index (exactPass vt (normalize_scheme_name q) limit) (Nat.le_of_lt hlt)
    refine ⟨?_, p, heq, hmemb, hfr⟩
    rw [heq]
    exact hle
  · rw [if_neg hlt]
    refine ⟨exactPass_length vt (normalize_scheme_name q) limit, [], by simp, ?_, trivial⟩
    intro r hr
    cases hr

/-- C2 witness: the search contract applied at the concrete two-record
table with query "alpha" and limit 10. -/
theorem search_spec_witness :
    (vtEx.search "alpha" 10).length ≤ 10 ∧
    ∃ p, vtEx.search "alpha" 10 = exactPass vtEx (normalize_scheme_name "alpha") 10 ++ p ∧
      (∀ r ∈ p, ∃ nm idxs, (nm, idxs) ∈ vtEx.name_index ∧
        containsStr nm (normalize_scheme_name "alpha") = true ∧
        nm ≠ normalize_scheme_name "alpha" ∧ ∃ i ∈ idxs, r = dataGet vtEx i) ∧
      freshFrom (exactPass vtEx (normalize_scheme_name "alpha") 10) p :=
  search_spec vtEx "alpha" 10

/-- Virtual tables reachable from `VirtualTable::new` by `add_record`
calls. -/
inductive Reachable : VirtualTable → Prop where
  | base : Reachable VirtualTable.new
  | step (vt : VirtualTable) (r : CombinedSchemeData) :
      Reachable vt → Reachable (vt.add_record r)

/-- A successful index lookup returns an entry of the list. -/
theorem lookupIdx_mem (m : List (String × List Nat)) (k : String) (l : List Nat)
    (h : lookupIdx m k = some l) : (k, l) ∈ m := by
  induction m with
  | nil => cases h
  | cons e rest ih =>
    obtain ⟨k2, v⟩ := e
    by_cases hk : (k2 == k) = true
    · have hk2 : k2 = k := by simpa using hk
      subst hk2
      have hv : v = l := by simpa [lookupIdx] using h
      subst hv
      exact List.mem_cons_self _ _
    · have h2 : lookupIdx rest k = some l := by simpa [lookupIdx, hk] using h
      exact List.mem_cons_of_mem _ (ih h2)

/-- Inserting under `k` extends exactly the positions stored under `k`. -/
theorem lookupIdx_indexInsert_self (m : List (String × List Nat)) (k : String) (i : Nat) :
    lookupIdx (indexInsert m k i) k = some ((lookupIdx m k).getD [] ++ [i]) := by
  induction m with
  | nil => simp [indexInsert, lookupIdx]
  | cons e rest ih =>
    obtain ⟨k2, v⟩ := e
    by_cases hk : (k2 == k) = true
    · simp [indexInsert, lookupIdx, hk]
    · simp [indexInsert, lookupIdx, hk, ih]

/-- Inserting under `k` leaves every other key's positions unchanged. -/
theorem lookupIdx_indexInsert_ne (m : List (String × List Nat)) (k k2 : String) (i : Nat)
    (hne : k2 ≠ k) : lookupIdx (indexInsert m k i) k2 = lookupIdx m k2 := by
  induction m with
  | nil =>
    have hb : (k == k2) = false := by
      simp [beq_eq_false_iff_ne]
      exact fun hcontr => hne hcontr.symm
    simp [indexInsert, lookupIdx, hb]
  | cons e rest ih =>
    obtain ⟨k3, v⟩ := e
    by_cases hk : (k3 == k) = true
    · have hk3 : k3 = k := by simpa using hk
      subst hk3
      have hb : (k3 == k2) = false := by
        simp [beq_eq_false_iff_ne]
        exact fun hcontr => hne hcontr.symm
      simp [indexInsert, lookupIdx, hk, hb]
    · by_cases hk32 : (k3 == k2) = true
      · simp [indexInsert, lookupIdx, hk, hk32]
      · simp [indexInsert, lookupIdx, hk, hk32, ih]

/-- Each entry of the updated index is an old entry, the extended entry for
`k`, or a fresh singleton entry for `k`. -/
theorem mem_indexInsert (m : List (String × List Nat)) (k : String) (i : Nat)
    (p : String × List Nat) (hp : p ∈ indexInsert m k i) :
    p ∈ m ∨ (∃ v, p = (k, v ++ [i]) ∧ (k, v) ∈ m) ∨ p = (k, [i]) := by
  induction m with
  | nil =>
    simp only [indexInsert, List.mem_singleton] at hp
    exact Or.inr (Or.inr hp)
  | cons e rest ih =>
    obtain ⟨k2, v⟩ := e
    by_cases hk : (k2 == k) = true
    · have hk2 : k2 = k := by simpa using hk
      subst hk2
      rw [show indexInsert ((k2, v) :: rest) k2 i = (k2, v ++ [i]) :: rest from by
        simp [indexInsert]] at hp
      rcases List.mem_cons.mp hp with rfl | hp
      · exact Or.inr (Or.inl ⟨v, rfl, List.mem_cons_self _ _⟩)
      · exact Or.inl (List.mem_cons_of_mem _ hp)
    · rw [show indexInsert ((k2, v) :: rest) k i = (k2, v) :: indexInsert rest k i from by
        simp [indexInsert, hk]] at hp
      rcases List.mem_cons.mp hp with rfl | hp
      · exact Or.inl (List.mem_cons_self _ _)
      · rcases ih hp with h | ⟨v2, hpv, hmem⟩ | h
        · exact Or.inl (List.mem_cons_of_mem _ h)
        · exact Or.inr (Or.inl ⟨v2, hpv, List.mem_cons_of_mem _ hmem⟩)
        · exact Or.inr (Or.inr h)

/-- Keys after insertion are old keys or the inserted key. -/
theorem keys_indexInsert (m : List (String × List Nat)) (k : String) (i : Nat)
    (x : String) (hx : x ∈ (indexInsert m k i).map Prod.fst) :
    x ∈ m.map Prod.fst ∨ x = k := by
  obtain ⟨p, hp, hpx⟩ := List.mem_map.mp hx
  rcases mem_indexInsert m k i p hp with h | ⟨v, rfl, _⟩ | rfl
  · exact Or.inl (List.mem_map.mpr ⟨p, h, hpx⟩)
  · exact Or.inr hpx.symm
  · exact Or.inr hpx.symm

/-- Insertion preserves key distinctness. -/
theorem nodup_keys_indexInsert (m : List (String × List Nat)) (k : String) (i : Nat)
    (h : (m.map Prod.fst).Nodup) : ((indexInsert m k i).map Prod.fst).Nodup := by
  induction m with
  | nil => simp [indexInsert]
  | cons e rest ih =>
    obtain ⟨k2, v⟩ := e
    rw [List.map_cons] at h
    obtain ⟨hk2, hrest⟩ := List.nodup_cons.mp h
    by_cases hk : (k2 == k) = true
    · rw [show indexInsert ((k2, v) :: rest) k i = (k2, v ++ [i]) :: rest from by
        simp [indexInsert, hk]]
      rw [List.map_cons]
      exact List.nodup_cons.mpr ⟨hk2, hrest⟩
    · rw [show indexInsert ((k2, v) :: rest) k i = (k2, v) :: indexInsert rest k i from by
        simp [indexInsert, hk]]
      rw [List.map_cons]
      refine List.nodup_cons.mpr ⟨?_, ih hrest⟩
      intro hcontr
      rcases keys_indexInsert rest k i k2 hcontr with h2 | h2
      · exact hk2 h2
      · rw [h2] at hk
        simp at hk

/-- `get?` on a list extended on the right, at an old position. -/
theorem get?_append_left_aux {α : Type} (l l2 : List α) (i : Nat) (h : i < l.length) :
    List.get? (l ++ l2) i = List.get? l i := by
  rw [List.get?_eq_getElem?, List.get?_eq_getElem?, List.getElem?_append_left h]

/-- The full index invariant of a virtual table. -/
def VTInv (vt : VirtualTable) : Prop :=
  ((vt.name_index.map Prod.fst).Nodup) ∧
  (∀ p ∈ vt.name_index, ∀ i ∈ p.2, ∃ r, List.get? vt.data i = some r ∧
    normalize_scheme_name r.scheme_name = p.1) ∧
  (∀ i r, List.get? vt.data i = some r →
    ∃ l, lookupIdx vt.name_index (normalize_scheme_name r.scheme_name) = some l ∧ i ∈ l)

/-- The empty table satisfies the invariant. -/
theorem VTInv_new : VTInv VirtualTable.new := by
  refine ⟨by simp [VirtualTable.new], ?_, ?_⟩
  · intro p hp
    cases hp
  · intro i r h
    simp [VirtualTable.new] at h

/-- `get?` at the appended position. -/
theorem get?_concat_len {α : Type} (l : List α) (a : α) :
    List.get? (l ++ [a]) l.length = some a := by
  rw [List.get?_eq_getElem?]
  exact List.getElem?_concat_length l a

/-- `add_record` preserves the invariant. -/
theorem VTInv_add (vt : VirtualTable) (rec : CombinedSchemeData) (h : VTInv vt) :
    VTInv (vt.add_record rec) := by
  obtain ⟨hnodup, hentries, hcomplete⟩ := h
  have hdata : (vt.add_record rec).data = vt.data ++ [rec] := rfl
  have hidx : (vt.add_record rec).name_index
      = indexInsert vt.name_index (normalize_scheme_name rec.scheme_name)
        vt.data.length := rfl
  refine ⟨?_, ?_, ?_⟩
  · rw [hidx]
    exact nodup_keys_indexInsert _ _ _ hnodup
  · intro p hp i hi
    rw [hidx] at hp
    rw [hdata]
    rcases mem_indexInsert vt.name_index (normalize_scheme_name rec.scheme_name)
        vt.data.length p hp with hold | ⟨v, rfl, hmemv⟩ | rfl
    · obtain ⟨r, hr, hkey⟩ := hentries p hold i hi
      have hlt : i < vt.data.length := (List.get?_eq_some.mp hr).1
      exact ⟨r, by rw [get?_append_left_aux _ _ _ hlt]; exact hr, hkey⟩
    · rcases List.mem_append.mp hi with hiv | hirec
      · obtain ⟨r, hr, hkey⟩ := hentries _ hmemv i hiv
        have hlt : i < vt.data.length := (List.get?_eq_some.mp hr).1
        exact ⟨r, by rw [get?_append_left_aux _ _ _ hlt]; exact hr, hkey⟩
      · have hieq : i = vt.data.length := by simpa using hirec
        subst hieq
        exact ⟨rec, get?_concat_len _ _, rfl⟩
    · have hieq : i = vt.data.length := by simpa using hi
      subst hieq
      exact ⟨rec, get?_concat_len _ _, rfl⟩
  · intro i r hr
    rw [hdata] at hr
    rw [hidx]
    by_cases hi : i < vt.data.length
    · have hro : List.get? vt.data i = some r := by
        rw [← get?_append_left_aux vt.data [rec] i hi]
        exact hr
      obtain ⟨l, hl, hil⟩ := hcomplete i r hro
      by_cases hkeq : normalize_scheme_name r.scheme_name
          = normalize_scheme_name rec.scheme_name
      · refine ⟨l ++ [vt.data.length], ?_, List.mem_append_left _ hil⟩
        rw [hkeq, lookupIdx_indexInsert_self]
        rw [hkeq] at hl
        rw [hl]
        rfl
      · refine ⟨l, ?_, hil⟩
        rw [lookupIdx_indexInsert_ne _ _ _ _ hkeq]
        exact hl
    · have hlt2 : i < vt.data.length + 1 := by
        have hx := (List.get?_eq_some.mp hr).1
        simpa using hx
      have hieq : i = vt.data.length := by omega
      subst hieq
      have hrrec : r = rec := by
        have hy := get?_concat_len vt.data rec
        rw [hr] at hy
        exact Option.some.inj hy
      subst hrrec
      exact ⟨(lookupIdx vt.name_index (normalize_scheme_name r.scheme_name)).getD []
          ++ [vt.data.length],
        lookupIdx_indexInsert_self _ _ _,
        List.mem_append_right _ (List.mem_singleton.mpr rfl)⟩

/-- C10: in every table reachable by `new`/`add_record`, a position `i` is
stored under key `k` exactly when `i` is a valid index into `data` and `k`
is the normalized scheme name of `data[i]`; consequently every position
held by the index — hence every element access `search` performs — is in
bounds. -/
theorem virtual_table_index_invariant (vt : VirtualTable) (k : String) (i : Nat)
    (h : Reachable vt) :
    ((∃ l, lookupIdx vt.name_index k = some l ∧ i ∈ l) ↔
      (∃ r, List.get? vt.data i = some r ∧ normalize_scheme_name r.scheme_name = k)) ∧
    (∀ p ∈ vt.name_index, ∀ j ∈ p.2, j < vt.data.length) := by
  have hinv : VTInv vt := by
    induction h with
    | base => exact VTInv_new
    | step vt2 r _ ih => exact VTInv_add vt2 r ih
  obtain ⟨hnodup, hentries, hcomplete⟩ := hinv
  refine ⟨⟨?_, ?_⟩, ?_⟩
  · rintro ⟨l, hl, hi⟩
    exact hentries (k, l) (lookupIdx_mem _ _ _ hl) i hi
  · rintro ⟨r, hr, hk⟩
    obtain ⟨l, hl, hi⟩ := hcomplete i r hr
    rw [hk] at hl
    exact ⟨l, hl, hi⟩
  · intro p hp j hj
    obtain ⟨r, hr, _⟩ := hentries p hp j hj
    exact (List.get?_eq_some.mp hr).1

/-- C10 witness: the invariant applied at the concrete two-record table,
key "alpha fund" and position 0. -/
theorem virtual_table_index_invariant_witness :
    ∃ r, List.get? vtEx.data 0 = some r ∧
      normalize_scheme_name r.scheme_name = "alpha fund" :=
  (virtual_table_index_invariant vtEx "alpha fund" 0
      (Reachable.step _ _ (Reachable.step _ _ Reachable.base))).1.mp
    ⟨[0], rfl, by simp⟩
